import Mathlib

/-!
# NRC7292 TXQ scheduler: credit-based fair queuing

Shallow embedding of
* `code_analysis/improvements/nrc-mac80211-improved.c`
  (`count_active_txqs_by_ac`, `count_total_active_txqs`,
  `get_packet_credit_requirement`, `nrc_push_txq_improved`,
  `process_txqs_by_ac_priority`, `nrc_tx_tasklet_improved`,
  `nrc_wake_tx_queue_improved`) and
* `nrc7292_sw_pkg/package/src/nrc/nrc-mac80211.c` (`nrc_mac_tx`).

Modelling conventions.
* A `struct nrc_txq` is identified by a number (its address); the driver heap
  is the map `Nrc.txqs`.  The intrusive list `nw->txq` is the list of the
  identities of the linked nodes, head first.  A node is linked
  (`!list_empty(&ntxq->list)`) exactly when its identity occurs in that list.
* C `int` values are `Int`; lengths and counters are `Nat`.  Wrap-around of
  machine integers is outside the model.
* Calls that leave the driver (`nrc_xmit_frame`, `nrc_enqueue_txq`,
  `nrc_hif_wake_target`, `nrc_kick_txq`) are recorded in ghost logs.
* Locking (`spin_lock_bh`, `rcu_read_lock`) has no sequential effect.
-/

namespace Nrc7292

/-! ## Data model -/

/-- Identity of a `struct nrc_txq`. -/
abbrev TxqId := Nat

/-- The part of `struct sk_buff` the scheduler looks at: the byte length
`skb->len`, and the payload, kept as a number so that frames can be told
apart. -/
structure SkBuff where
  len : Nat
  data : Nat
deriving DecidableEq

/-- A `struct nrc_txq` together with the frames waiting in the mac80211 queue
`to_txq(ntxq)`, oldest first. -/
structure NrcTxq where
  hw_queue : Nat
  nr_push_allowed : Nat
  pending : List SkBuff
deriving DecidableEq

/-- Values of `enum nrc_drv_state` that the scheduler distinguishes:
`NRC_DRV_PS` and any other state. -/
inductive DrvState where
  | NRC_DRV_PS
  | NRC_DRV_RUNNING
deriving DecidableEq

/-- Ghost record of one call `nrc_mac_tx(nw->hw, &control, skb)`: the queue the
frame was taken from, the frame, and whether `nrc_mac_tx` passed it on to
`nrc_xmit_frame` (`true`) or to `nrc_enqueue_txq` (`false`). -/
structure TxEvent where
  txq : TxqId
  skb : SkBuff
  xmit : Bool
deriving DecidableEq

/-- Ghost record of one call `nrc_push_txq_improved(nw, ntxq, max_credit)` made
by `process_txqs_by_ac_priority`, with its return value. -/
structure PushCall where
  txq : TxqId
  max_credit : Int
  ret : Int
deriving DecidableEq

/-- The driver context `struct nrc` (fields of `nrc.h` used by the scheduler),
the heap of queues, and the ghost logs. -/
structure Nrc where
  tx_credit : Nat → Int
  tx_pend : Nat → Int
  txq : List TxqId
  drv_state : DrvState
  buffer_size : Nat
  txqs : TxqId → NrcTxq
  tx_log : List TxEvent
  push_log : List PushCall
  hif_wakes : Nat
  kicks : Nat

/-- `IEEE80211_NUM_ACS` of `nrc.h`. -/
def IEEE80211_NUM_ACS : Nat := 4

/-- `IEEE80211_AC_VO` of `enum ieee80211_ac_numbers` in `net/mac80211.h`, the
header `nrc.h` includes. -/
def IEEE80211_AC_VO : Nat := 0

/-- `IEEE80211_AC_VI` of `enum ieee80211_ac_numbers`. -/
def IEEE80211_AC_VI : Nat := 1

/-- `IEEE80211_AC_BE` of `enum ieee80211_ac_numbers`. -/
def IEEE80211_AC_BE : Nat := 2

/-- `IEEE80211_AC_BK` of `enum ieee80211_ac_numbers`. -/
def IEEE80211_AC_BK : Nat := 3

/-- AC priority order: Voice > Video > Best Effort > Background. -/
def ac_priority_order : List Nat :=
  [IEEE80211_AC_VO, IEEE80211_AC_VI, IEEE80211_AC_BE, IEEE80211_AC_BK]

/-! ## Kernel list primitives on the list of linked nodes -/

/-- `list_add_tail(&q->list, head)`. -/
def list_add_tail (l : List TxqId) (q : TxqId) : List TxqId := l ++ [q]

/-- `list_del_init(&q->list)`. -/
def list_del_init (l : List TxqId) (q : TxqId) : List TxqId := l.erase q

/-- `list_move_tail(&q->list, head)`: unlink, then link before the head. -/
def list_move_tail (l : List TxqId) (q : TxqId) : List TxqId := l.erase q ++ [q]

/-- The entry `q->list.next` points at; `none` stands for the list head. -/
def list_next (l : List TxqId) (q : TxqId) : Option TxqId :=
  ((l.dropWhile (fun x => x != q)).drop 1).head?

/-! ## Credit pool -/

/-- Modelled from the spec: `nrc_ac_credit` is declared outside the given
sources; section 4.1 describes it as `available(class)`, a non-blocking read of
the current credit of the class. -/
def nrc_ac_credit (nw : Nrc) (ac : Nat) : Int := nw.tx_credit ac

/-- `DIV_ROUND_UP(n, d)`, that is `(n + d - 1) / d`.  For `d = 0` the C
expression divides by zero; the value here is then `0`. -/
def DIV_ROUND_UP (n d : Nat) : Nat := (n + d - 1) / d

/-- `nrc_mac_tx` of `nrc-mac80211.c`.  `src` is the ghost tag for the log.
`setup_ba_session` is a stub returning 0 and is left out. -/
def nrc_mac_tx (nw : Nrc) (src : TxqId) (skb : SkBuff) : Nrc :=
  let ac : Nat := 0
  let required_credits : Int := (DIV_ROUND_UP skb.len nw.buffer_size : Nat)
  if nw.tx_credit ac ≥ required_credits then
    { nw with
      tx_credit := Function.update nw.tx_credit ac (nw.tx_credit ac - required_credits)
      tx_pend := Function.update nw.tx_pend ac (nw.tx_pend ac + required_credits)
      tx_log := nw.tx_log ++ [TxEvent.mk src skb true] }
  else
    { nw with tx_log := nw.tx_log ++ [TxEvent.mk src skb false] }

/-! ## Counting -/

/-- `count_active_txqs_by_ac`. -/
def count_active_txqs_by_ac (nw : Nrc) (target_ac : Nat) : Nat :=
  nw.txq.countP (fun q => (nw.txqs q).hw_queue == target_ac)

/-- `count_total_active_txqs`. -/
def count_total_active_txqs (nw : Nrc) : Nat := nw.txq.length

/-- `get_packet_credit_requirement`. -/
def get_packet_credit_requirement (nw : Nrc) (skb : SkBuff) : Int :=
  (DIV_ROUND_UP skb.len nw.buffer_size : Nat)

/-! ## Queue drain -/

/-- Lines 125-134 of `nrc_push_txq_improved`: `ieee80211_tx_dequeue` takes the
head frame `skb` off the queue `q` and leaves `rest`, the frame goes to
`nrc_mac_tx`, and `ntxq->nr_push_allowed` is incremented. -/
def push_frame (q : TxqId) (skb : SkBuff) (rest : List SkBuff) (nw : Nrc) : Nrc :=
  let nw1 := { nw with txqs := Function.update nw.txqs q { nw.txqs q with pending := rest } }
  let nw2 := nrc_mac_tx nw1 q skb
  { nw2 with
    txqs := Function.update nw2.txqs q
      { nw2.txqs q with nr_push_allowed := (nw2.txqs q).nr_push_allowed + 1 } }

/-- The `while (used_credit < credit_limit)` loop of `nrc_push_txq_improved`.
The list argument is what `ieee80211_tx_dequeue_peek` sees: the frames still
pending in the queue `q`, which is `(nw.txqs q).pending` throughout.  Every
iteration that does not leave the loop dequeues the head of that list.  The
result is `(ret, nw)`.  In this sequential model `ieee80211_tx_dequeue` returns
the frame just peeked, so the second `if (!skb) break` is never taken. -/
def push_loop (q : TxqId) (credit_limit : Int) : List SkBuff → Int → Nrc → Int × Nrc
  | [], _, nw => (0, nw)
  | skb :: rest, used_credit, nw =>
    if used_credit < credit_limit then
      let required_credit := get_packet_credit_requirement nw skb
      if used_credit + required_credit > credit_limit then
        (1, nw)
      else
        push_loop q credit_limit rest (used_credit + required_credit) (push_frame q skb rest nw)
    else
      (0, nw)

/-- `nrc_push_txq_improved`: returns `(ret, nw)`. -/
def nrc_push_txq_improved (nw : Nrc) (q : TxqId) (max_credit : Int) : Int × Nrc :=
  let ac := (nw.txqs q).hw_queue
  let available_credit := nrc_ac_credit nw ac
  let credit_limit := min available_credit max_credit
  if credit_limit ≤ 0 then
    (1, nw)
  else
    push_loop q credit_limit (nw.txqs q).pending 0 nw

/-! ## Class scheduler -/

/-- Lines 179-193 of `process_txqs_by_ac_priority`: the body of the loop for a
queue `q` of the target class while credit remains.  Drains `q` with
`allocated_credit`, unlinks it or moves it to the tail, and charges
`estimated_used`.  The result is `(nw, *remaining_credit)`. -/
def txq_visit (target_ac : Nat) (credit_per_txq : Int) (q : TxqId) (nw : Nrc)
    (remaining_credit : Int) : Nrc × Int :=
  let allocated_credit := min credit_per_txq remaining_credit
  let r := nrc_push_txq_improved nw q allocated_credit
  let nw1 := { r.2 with push_log := r.2.push_log ++ [PushCall.mk q allocated_credit r.1] }
  let nw2 :=
    if r.1 = 0 then { nw1 with txq := list_del_init nw1.txq q }
    else { nw1 with txq := list_move_tail nw1.txq q }
  let estimated_used :=
    min allocated_credit
      (if count_active_txqs_by_ac nw2 target_ac > 0 then allocated_credit else 0)
  (nw2, remaining_credit - estimated_used)

/-- The `list_for_each_entry_safe(ntxq, tmp, &nw->txq, list)` loop of
`process_txqs_by_ac_priority`.  The cursor `ntxq` is the `Option TxqId`
argument (`none`: the cursor reached the list head, the loop is over); `tmp` is
read from the list before the body runs.  The first argument bounds the number
of iterations; `none` is returned when it is used up.  The result is
`(nw, *remaining_credit)`. -/
def txq_walk (target_ac : Nat) (credit_per_txq : Int) :
    Nat → Option TxqId → Nrc → Int → Option (Nrc × Int)
  | _, none, nw, remaining_credit => some (nw, remaining_credit)
  | 0, some _, _, _ => none
  | fuel + 1, some q, nw, remaining_credit =>
    let tmp := list_next nw.txq q
    if (nw.txqs q).hw_queue ≠ target_ac then
      txq_walk target_ac credit_per_txq fuel tmp nw remaining_credit
    else if remaining_credit ≤ 0 then
      some (nw, remaining_credit)
    else
      let r := txq_visit target_ac credit_per_txq q nw remaining_credit
      txq_walk target_ac credit_per_txq fuel tmp r.1 r.2

/-- Number of loop iterations that is enough for `txq_walk` from the given
state: every iteration either steps over a queue, unlinks one, or lowers the
remaining credit by at least one. -/
def walk_fuel (nw : Nrc) (remaining_credit : Int) : Nat :=
  remaining_credit.toNat * (nw.txq.length + 1) + nw.txq.length + 1

/-- `process_txqs_by_ac_priority`: returns the state and `*remaining_credit`. -/
def process_txqs_by_ac_priority (nw : Nrc) (target_ac : Nat) (remaining_credit : Int) :
    Option (Nrc × Int) :=
  if remaining_credit ≤ 0 then
    some (nw, remaining_credit)
  else
    let ac_txq_count := count_active_txqs_by_ac nw target_ac
    if ac_txq_count = 0 then
      some (nw, remaining_credit)
    else
      let credit_per_txq := max 1 (Int.tdiv remaining_credit ac_txq_count)
      txq_walk target_ac credit_per_txq (walk_fuel nw remaining_credit) nw.txq.head? nw
        remaining_credit

/-! ## Scheduling pass -/

/-- The loop `for (i = 0; i < ARRAY_SIZE(ac_priority_order); i++)` of
`nrc_tx_tasklet_improved`, over the entries of `ac_priority_order` still to be
processed. -/
def tasklet_loop : List Nat → Nrc → Int → Option (Nrc × Int)
  | [], nw, remaining_credit => some (nw, remaining_credit)
  | ac :: rest, nw, remaining_credit =>
    match process_txqs_by_ac_priority nw ac remaining_credit with
    | none => none
    | some r => if r.2 ≤ 0 then some r else tasklet_loop rest r.1 r.2

/-- The sum computed by `for (i = 0; i < IEEE80211_NUM_ACS; i++)
total_available_credit += nrc_ac_credit(nw, i)`. -/
def total_available_credit (nw : Nrc) : Int :=
  ((List.range IEEE80211_NUM_ACS).map (nrc_ac_credit nw)).sum

/-- `nrc_tx_tasklet_improved`. -/
def nrc_tx_tasklet_improved (nw : Nrc) : Option Nrc :=
  if count_total_active_txqs nw = 0 then
    some nw
  else if total_available_credit nw ≤ 0 then
    some nw
  else
    (tasklet_loop ac_priority_order nw (total_available_credit nw)).map Prod.fst

/-! ## Activation trigger -/

/-- `nrc_wake_tx_queue_improved`.  `nrc_hif_wake_target` and `nrc_kick_txq` are
counted; `ieee80211_txq_get_depth` only feeds the debug output. -/
def nrc_wake_tx_queue_improved (nw : Nrc) (q : TxqId) : Nrc :=
  let nw1 := if nw.drv_state = DrvState.NRC_DRV_PS then
      { nw with hif_wakes := nw.hif_wakes + 1 } else nw
  let nw2 := if q ∉ nw1.txq then
      { nw1 with txq := list_add_tail nw1.txq q } else nw1
  { nw2 with kicks := nw2.kicks + 1 }

/-! ## Observations used in the statements -/

/-- The calls of `nrc_mac_tx` so far, in order: which queue each frame was
taken from, and the frame. -/
def handed (nw : Nrc) : List (TxqId × SkBuff) :=
  nw.tx_log.map (fun e => (e.txq, e.skb))

/-- Sum of the credit costs of a list of frames. -/
def credit_sum (nw : Nrc) (frames : List SkBuff) : Int :=
  (frames.map (get_packet_credit_requirement nw)).sum

/-- The frames handed to `nrc_mac_tx` between the state `before` and the later
state `after`, in order. -/
def newly_handed (before after : Nrc) : List (TxqId × SkBuff) :=
  (handed after).drop (handed before).length

/-- A frame of `100 * cost` bytes; with 100-byte buffers it costs `cost`
credits. -/
def frame (cost tag : Nat) : SkBuff := { len := 100 * cost, data := tag }

/-- A running driver context with 100-byte firmware buffers, the given credit,
active list and queues, and empty logs. -/
def fresh (credit : Nat → Int) (active : List TxqId) (txqs : TxqId → NrcTxq) : Nrc :=
  { tx_credit := credit, tx_pend := fun _ => 0, txq := active,
    drv_state := DrvState.NRC_DRV_RUNNING, buffer_size := 100, txqs := txqs,
    tx_log := [], push_log := [], hif_wakes := 0, kicks := 0 }

/-- One Best-Effort queue holding two one-credit frames, one credit available
to Best Effort. -/
def exact_budget_state : Nrc :=
  fresh (fun ac => if ac = IEEE80211_AC_BE then 1 else 0) [0]
    (fun _ => { hw_queue := IEEE80211_AC_BE, nr_push_allowed := 0,
                pending := [frame 1 1, frame 1 2] })

/-- One empty Best-Effort queue in the active list, no credit in any class. -/
def empty_queue_state : Nrc :=
  fresh (fun _ => 0) [0]
    (fun _ => { hw_queue := IEEE80211_AC_BE, nr_push_allowed := 0, pending := [] })

/-- One Best-Effort queue holding a one-credit frame in the active list, no
credit in any class. -/
def backpressure_state : Nrc :=
  fresh (fun _ => 0) [0]
    (fun _ => { hw_queue := IEEE80211_AC_BE, nr_push_allowed := 0, pending := [frame 1 1] })

/-- Credit `{Voice: 2, Video: 0, Best Effort: 0, Background: 3}`; the active
list holds a Voice queue (queue 0) with six one-credit frames and a Background
queue (queue 1) with one one-credit frame. -/
def priority_state : Nrc :=
  fresh (fun ac => if ac = IEEE80211_AC_VO then 2 else if ac = IEEE80211_AC_BK then 3 else 0)
    [0, 1]
    (fun q => if q = 0 then
        { hw_queue := IEEE80211_AC_VO, nr_push_allowed := 0,
          pending := [frame 1 1, frame 1 2, frame 1 3, frame 1 4, frame 1 5, frame 1 6] }
      else
        { hw_queue := IEEE80211_AC_BK, nr_push_allowed := 0, pending := [frame 1 9] })

/-- Credit `{Voice: 2, Video: 0, Best Effort: 5, Background: 0}`; the active
list holds one Voice queue (queue 0) with frames costing `[1, 1, 1]`. -/
def scenario1_state : Nrc :=
  fresh (fun ac => if ac = IEEE80211_AC_VO then 2 else if ac = IEEE80211_AC_BE then 5 else 0)
    [0]
    (fun _ => { hw_queue := IEEE80211_AC_VO, nr_push_allowed := 0,
                pending := [frame 1 1, frame 1 2, frame 1 3] })

/-- Credit `{Best Effort: 5}`; the active list holds two Best-Effort queues
(queues 0 and 1), each with one frame costing 3 credits. -/
def scenario2_state : Nrc :=
  fresh (fun ac => if ac = IEEE80211_AC_BE then 5 else 0) [0, 1]
    (fun q => { hw_queue := IEEE80211_AC_BE, nr_push_allowed := 0, pending := [frame 3 q] })


/-- One Best-Effort queue holding three frames of length zero, one credit
available to Best Effort. -/
def zero_length_state : Nrc :=
  fresh (fun ac => if ac = IEEE80211_AC_BE then 1 else 0) [0]
    (fun _ => { hw_queue := IEEE80211_AC_BE, nr_push_allowed := 0,
                pending := [frame 0 1, frame 0 2, frame 0 3] })

/-- One Best-Effort queue holding a single one-credit frame, five credits
available to Best Effort. -/
def single_queue_state : Nrc :=
  fresh (fun ac => if ac = IEEE80211_AC_BE then 5 else 0) [0]
    (fun _ => { hw_queue := IEEE80211_AC_BE, nr_push_allowed := 0, pending := [frame 1 1] })


/-- The queues of the list `l` whose class, read in the state `nw0`, is not
`c`, in the order of `l`. -/
def other_class_txqs (nw0 : Nrc) (c : Nat) (l : List TxqId) : List TxqId :=
  l.filter (fun p => (nw0.txqs p).hw_queue != c)

/-- What a call of the class scheduler for the class `target`, started in
`nw0`, leaves alone: the class of every queue, the queues of other classes,
their places in the active list, the buffer size; and every frame handed over
since `nw0` comes from a queue of the class `target`. -/
def frame_inv (nw0 : Nrc) (target : Nat) (nw : Nrc) : Prop :=
  (∀ p, (nw.txqs p).hw_queue = (nw0.txqs p).hw_queue) ∧
  (∀ p, (nw0.txqs p).hw_queue ≠ target → nw.txqs p = nw0.txqs p) ∧
  other_class_txqs nw0 target nw.txq = other_class_txqs nw0 target nw0.txq ∧
  nw.buffer_size = nw0.buffer_size ∧
  ∃ hs, handed nw = handed nw0 ++ hs ∧ ∀ e ∈ hs, (nw0.txqs e.1).hw_queue = target


/-- The queues passed to `nrc_push_txq_improved` by the listed calls, in
order. -/
def drained (calls : List PushCall) : List TxqId := calls.map PushCall.txq

/-- Round-robin order of a sequence of drain calls made by one call of the
class scheduler started in `nw0`: whenever a queue is drained that was drained
before in the sequence, every queue of the target class that was in the active
list of `nw0` has been drained before that call. -/
def round_robin (nw0 : Nrc) (target : Nat) (calls : List PushCall) : Prop :=
  ∀ xs e ys, calls = xs ++ e :: ys → e.txq ∈ drained xs →
    ∀ p ∈ nw0.txq, (nw0.txqs p).hw_queue = target → p ∈ drained xs

/-- Invariant of the traversal of `process_txqs_by_ac_priority` started in
`nw0`, after the drain calls `calls`, with the cursor at `pos`.  The active list
is `B ++ q :: (U ++ M)`: the queues `B` stepped over (none of the target
class), the cursor `q`, the queues
`U` not drained yet, the queues `M` that were drained and moved to the tail. -/
def walk_inv (nw0 : Nrc) (target : Nat) (calls : List PushCall) (pos : Option TxqId)
    (nw : Nrc) : Prop :=
  nw.push_log = nw0.push_log ++ calls ∧
  (∀ p, (nw.txqs p).hw_queue = (nw0.txqs p).hw_queue) ∧
  nw.txq.Nodup ∧
  (∀ x ∈ nw.txq, x ∈ nw0.txq) ∧
  (∀ c ∈ calls, c.txq ∈ nw0.txq ∧ (nw0.txqs c.txq).hw_queue = target ∧ 1 ≤ c.max_credit) ∧
  round_robin nw0 target calls ∧
  (∀ q, pos = some q → ∃ B U M, nw.txq = B ++ q :: (U ++ M) ∧
    (∀ x ∈ B, (nw0.txqs x).hw_queue ≠ target) ∧
    (∀ x ∈ U, x ∉ drained calls) ∧ (∀ x ∈ M, x ∈ drained calls) ∧
    (q ∈ drained calls → U = []) ∧
    (∀ p ∈ nw0.txq, (nw0.txqs p).hw_queue = target → p ∈ drained calls ∨ p = q ∨ p ∈ U))


/-- Credit `{Best Effort: 1}`; the active list holds five Best-Effort queues
(queues 0 to 4), each with one frame costing 1 credit. -/
def five_queue_state : Nrc :=
  fresh (fun ac => if ac = IEEE80211_AC_BE then 1 else 0) [0, 1, 2, 3, 4]
    (fun q => { hw_queue := IEEE80211_AC_BE, nr_push_allowed := 0, pending := [frame 1 q] })


/-- Total budget the listed drain calls allocated to the queue `p`: the sum of
`max_credit` over the calls that drained `p`. -/
def allocated_to (calls : List PushCall) (p : TxqId) : Int :=
  ((calls.filter (fun c => c.txq == p)).map PushCall.max_credit).sum

/-- The scheduler fields a queue drain does not touch agree in both states. -/
def same_sched (a b : Nrc) : Prop :=
  a.txq = b.txq ∧ a.buffer_size = b.buffer_size ∧ a.push_log = b.push_log ∧
    a.drv_state = b.drv_state ∧ a.hif_wakes = b.hif_wakes ∧ a.kicks = b.kicks

/-- Number of entries of the list from the cursor to the last entry; `0` when
the cursor is at the list head. -/
def cursor_dist (l : List TxqId) : Option TxqId → Nat
  | none => 0
  | some q => (l.dropWhile (fun x => x != q)).length

end Nrc7292

namespace Nrc7292

/-! ## Queue drain: lemmas -/

theorem same_sched_refl (a : Nrc) : same_sched a a :=
  ⟨rfl, rfl, rfl, rfl, rfl, rfl⟩

theorem same_sched_trans {a b c : Nrc} (h1 : same_sched a b) (h2 : same_sched b c) :
    same_sched a c := by
  obtain ⟨a1, a2, a3, a4, a5, a6⟩ := h1
  obtain ⟨b1, b2, b3, b4, b5, b6⟩ := h2
  exact ⟨a1.trans b1, a2.trans b2, a3.trans b3, a4.trans b4, a5.trans b5, a6.trans b6⟩

theorem nrc_mac_tx_handed (nw : Nrc) (q : TxqId) (skb : SkBuff) :
    handed (nrc_mac_tx nw q skb) = handed nw ++ [(q, skb)] := by
  unfold nrc_mac_tx handed
  dsimp only
  split <;> simp

theorem nrc_mac_tx_txqs (nw : Nrc) (q : TxqId) (skb : SkBuff) :
    (nrc_mac_tx nw q skb).txqs = nw.txqs := by
  unfold nrc_mac_tx
  dsimp only
  split <;> rfl

theorem nrc_mac_tx_same_sched (nw : Nrc) (q : TxqId) (skb : SkBuff) :
    same_sched (nrc_mac_tx nw q skb) nw := by
  unfold nrc_mac_tx
  dsimp only
  split <;> exact ⟨rfl, rfl, rfl, rfl, rfl, rfl⟩

theorem credit_sum_congr {a b : Nrc} (h : a.buffer_size = b.buffer_size) (fs : List SkBuff) :
    credit_sum a fs = credit_sum b fs := by
  unfold credit_sum get_packet_credit_requirement
  rw [h]

theorem credit_sum_cons (nw : Nrc) (f : SkBuff) (fs : List SkBuff) :
    credit_sum nw (f :: fs) = get_packet_credit_requirement nw f + credit_sum nw fs := by
  simp [credit_sum]

theorem push_frame_handed (q : TxqId) (skb : SkBuff) (rest : List SkBuff) (nw : Nrc) :
    handed (push_frame q skb rest nw) = handed nw ++ [(q, skb)] := by
  have h := nrc_mac_tx_handed
    { nw with txqs := Function.update nw.txqs q { nw.txqs q with pending := rest } } q skb
  simpa [push_frame, handed] using h

theorem push_frame_txqs_self (q : TxqId) (skb : SkBuff) (rest : List SkBuff) (nw : Nrc) :
    (push_frame q skb rest nw).txqs q
      = { nw.txqs q with pending := rest, nr_push_allowed := (nw.txqs q).nr_push_allowed + 1 } := by
  simp [push_frame, nrc_mac_tx_txqs]

theorem push_frame_txqs_other (q : TxqId) (skb : SkBuff) (rest : List SkBuff) (nw : Nrc)
    (p : TxqId) (hp : p ≠ q) : (push_frame q skb rest nw).txqs p = nw.txqs p := by
  simp [push_frame, nrc_mac_tx_txqs, Function.update_noteq hp]

theorem push_frame_same_sched (q : TxqId) (skb : SkBuff) (rest : List SkBuff) (nw : Nrc) :
    same_sched (push_frame q skb rest nw) nw := by
  obtain ⟨a1, a2, a3, a4, a5, a6⟩ := nrc_mac_tx_same_sched
    { nw with txqs := Function.update nw.txqs q { nw.txqs q with pending := rest } } q skb
  exact ⟨a1, a2, a3, a4, a5, a6⟩

/-- What the drain loop does, in terms of the number `j` of frames it takes
from the head of the queue. -/
theorem push_loop_spec (q : TxqId) (L : Int) :
    ∀ (frames : List SkBuff) (used : Int) (nw : Nrc), (nw.txqs q).pending = frames →
      ∃ j, j ≤ frames.length ∧
        handed (push_loop q L frames used nw).2
          = handed nw ++ (frames.take j).map (fun f => (q, f)) ∧
        ((push_loop q L frames used nw).2.txqs q).pending = frames.drop j ∧
        ((push_loop q L frames used nw).2.txqs q).nr_push_allowed
          = (nw.txqs q).nr_push_allowed + j ∧
        ((push_loop q L frames used nw).2.txqs q).hw_queue = (nw.txqs q).hw_queue ∧
        (∀ p, p ≠ q → (push_loop q L frames used nw).2.txqs p = nw.txqs p) ∧
        same_sched (push_loop q L frames used nw).2 nw ∧
        (used ≤ L → used + credit_sum nw (frames.take j) ≤ L) ∧
        ((push_loop q L frames used nw).1 = 0 ∨
          ((push_loop q L frames used nw).1 = 1 ∧ frames.drop j ≠ [])) ∧
        (j = 0 → (push_loop q L frames used nw).2 = nw) := by
  intro frames
  induction frames with
  | nil =>
    intro used nw hp
    refine ⟨0, le_refl _, ?_⟩
    simp [push_loop, hp, same_sched_refl, credit_sum]
  | cons skb rest ih =>
    intro used nw hp
    by_cases h1 : used < L
    · by_cases h2 : used + get_packet_credit_requirement nw skb > L
      · refine ⟨0, Nat.zero_le _, ?_⟩
        simp [push_loop, h1, h2, hp, same_sched_refl, credit_sum, le_of_lt h1]
      · obtain ⟨j, hj, e1, e2, e3, e4, e5, e6, e7, e8, _⟩ :=
          ih (used + get_packet_credit_requirement nw skb) (push_frame q skb rest nw)
            (by rw [push_frame_txqs_self])
        have hstep : push_loop q L (skb :: rest) used nw
            = push_loop q L rest (used + get_packet_credit_requirement nw skb)
              (push_frame q skb rest nw) := by
          rw [push_loop]
          simp only [h1, h2, if_true, if_false]
        rw [hstep]
        have hss := push_frame_same_sched q skb rest nw
        refine ⟨j + 1, Nat.succ_le_succ hj, ?_, ?_, ?_, ?_, ?_, ?_, ?_, ?_, ?_⟩
        · rw [e1, push_frame_handed]
          simp
        · simpa using e2
        · rw [e3, push_frame_txqs_self]
          simp only
          omega
        · rw [e4, push_frame_txqs_self]
        · intro p hpq
          rw [e5 p hpq, push_frame_txqs_other q skb rest nw p hpq]
        · exact same_sched_trans e6 hss
        · intro _
          have h7 := e7 (le_of_not_gt h2)
          rw [credit_sum_congr (b := nw) hss.2.1] at h7
          rw [List.take_succ_cons, credit_sum_cons]
          linarith
        · simpa using e8
        · intro h
          omega
    · refine ⟨0, Nat.zero_le _, ?_⟩
      simp [push_loop, h1, hp, same_sched_refl, credit_sum]

/-- What one call of `nrc_push_txq_improved` does, in terms of the number `j`
of frames it takes from the head of the queue. -/
theorem push_txq_spec (nw : Nrc) (q : TxqId) (B : Int) :
    ∃ j, j ≤ (nw.txqs q).pending.length ∧
      handed (nrc_push_txq_improved nw q B).2
        = handed nw ++ ((nw.txqs q).pending.take j).map (fun f => (q, f)) ∧
      ((nrc_push_txq_improved nw q B).2.txqs q).pending = (nw.txqs q).pending.drop j ∧
      ((nrc_push_txq_improved nw q B).2.txqs q).nr_push_allowed
        = (nw.txqs q).nr_push_allowed + j ∧
      ((nrc_push_txq_improved nw q B).2.txqs q).hw_queue = (nw.txqs q).hw_queue ∧
      (∀ p, p ≠ q → (nrc_push_txq_improved nw q B).2.txqs p = nw.txqs p) ∧
      same_sched (nrc_push_txq_improved nw q B).2 nw ∧
      credit_sum nw ((nw.txqs q).pending.take j)
        ≤ max 0 (min (nrc_ac_credit nw (nw.txqs q).hw_queue) B) ∧
      (min (nrc_ac_credit nw (nw.txqs q).hw_queue) B ≤ 0 →
        j = 0 ∧ nrc_push_txq_improved nw q B = (1, nw)) ∧
      (0 < min (nrc_ac_credit nw (nw.txqs q).hw_queue) B →
        ((nrc_push_txq_improved nw q B).1 = 0 ∨
          ((nrc_push_txq_improved nw q B).1 = 1 ∧ (nw.txqs q).pending.drop j ≠ []))) := by
  by_cases hlim : min (nrc_ac_credit nw (nw.txqs q).hw_queue) B ≤ 0
  · have hR : nrc_push_txq_improved nw q B = (1, nw) := by
      simp only [nrc_push_txq_improved, hlim, if_true]
    refine ⟨0, Nat.zero_le _, ?_⟩
    rw [hR]
    refine ⟨by simp, by simp, by simp, rfl, fun _ _ => rfl, same_sched_refl nw, ?_, ?_, ?_⟩
    · simp [credit_sum]
    · intro _
      exact ⟨rfl, rfl⟩
    · intro h
      exact absurd h (not_lt.mpr hlim)
  · have hR : nrc_push_txq_improved nw q B
        = push_loop q (min (nrc_ac_credit nw (nw.txqs q).hw_queue) B) (nw.txqs q).pending 0 nw := by
      simp only [nrc_push_txq_improved, hlim, if_false]
    obtain ⟨j, hj, e1, e2, e3, e4, e5, e6, e7, e8, _⟩ :=
      push_loop_spec q (min (nrc_ac_credit nw (nw.txqs q).hw_queue) B)
        (nw.txqs q).pending 0 nw rfl
    have hpos : 0 < min (nrc_ac_credit nw (nw.txqs q).hw_queue) B := not_le.mp hlim
    refine ⟨j, hj, ?_⟩
    rw [hR]
    refine ⟨e1, e2, e3, e4, e5, e6, ?_, ?_, ?_⟩
    · have h7 := e7 (le_of_lt hpos)
      rw [max_eq_right (le_of_lt hpos)]
      linarith
    · intro h
      exact absurd h hlim
    · intro _
      exact e8

theorem newly_handed_of_append (a b : Nrc) (l : List (TxqId × SkBuff))
    (h : handed b = handed a ++ l) : newly_handed a b = l := by
  simp [newly_handed, h]

/-! ## C1: activation is idempotent -/

/-- C1: `nrc_wake_tx_queue_improved` leaves the active list unchanged when the
queue is already linked, appends the queue at the tail otherwise, and waking the
same queue a second time does not change the active list again. -/
theorem wake_tx_queue_idempotent (nw : Nrc) (q : TxqId) :
    (nrc_wake_tx_queue_improved nw q).txq = (if q ∈ nw.txq then nw.txq else nw.txq ++ [q]) ∧
    (nrc_wake_tx_queue_improved (nrc_wake_tx_queue_improved nw q) q).txq
      = (nrc_wake_tx_queue_improved nw q).txq := by
  have h1 : ∀ s : Nrc, (nrc_wake_tx_queue_improved s q).txq
      = (if q ∈ s.txq then s.txq else s.txq ++ [q]) := by
    intro s
    unfold nrc_wake_tx_queue_improved list_add_tail
    by_cases hps : s.drv_state = DrvState.NRC_DRV_PS <;> by_cases hq : q ∈ s.txq <;>
      simp [hps, hq]
  refine ⟨h1 nw, ?_⟩
  rw [h1 (nrc_wake_tx_queue_improved nw q), h1 nw]
  by_cases hq : q ∈ nw.txq <;> simp [hq]

/-! ## C3: the drain preserves FIFO order -/

/-- C3: one call of `nrc_push_txq_improved` hands to `nrc_mac_tx` exactly the
first `j` pending frames of the queue, in their order, leaves exactly the other
frames pending in their order, and raises `nr_push_allowed` by `j`. -/
theorem push_txq_fifo (nw : Nrc) (q : TxqId) (max_credit : Int) :
    ∃ j, j ≤ (nw.txqs q).pending.length ∧
      newly_handed nw (nrc_push_txq_improved nw q max_credit).2
        = ((nw.txqs q).pending.take j).map (fun f => (q, f)) ∧
      ((nrc_push_txq_improved nw q max_credit).2.txqs q).pending
        = (nw.txqs q).pending.drop j ∧
      ((nrc_push_txq_improved nw q max_credit).2.txqs q).nr_push_allowed
        = (nw.txqs q).nr_push_allowed + j := by
  obtain ⟨j, hj, e1, e2, e3, _⟩ := push_txq_spec nw q max_credit
  exact ⟨j, hj, newly_handed_of_append _ _ _ e1, e2, e3⟩

/-! ## C4: the drain stays within its budget -/

/-- C4: the credit costs of the frames one call of `nrc_push_txq_improved`
hands to `nrc_mac_tx` add up to at most `max_credit` and at most the credit of
the class read at the start of the call (for a budget and a credit level that
are not negative), and when the smaller of the two is not positive the call
hands over no frame. -/
theorem push_txq_within_budget (nw : Nrc) (q : TxqId) (max_credit : Int) :
    credit_sum nw ((newly_handed nw (nrc_push_txq_improved nw q max_credit).2).map Prod.snd)
      ≤ max 0 (min (nrc_ac_credit nw (nw.txqs q).hw_queue) max_credit) ∧
    (0 ≤ max_credit → 0 ≤ nrc_ac_credit nw (nw.txqs q).hw_queue →
      credit_sum nw ((newly_handed nw (nrc_push_txq_improved nw q max_credit).2).map Prod.snd)
        ≤ max_credit ∧
      credit_sum nw ((newly_handed nw (nrc_push_txq_improved nw q max_credit).2).map Prod.snd)
        ≤ nrc_ac_credit nw (nw.txqs q).hw_queue) ∧
    (min max_credit (nrc_ac_credit nw (nw.txqs q).hw_queue) ≤ 0 →
      newly_handed nw (nrc_push_txq_improved nw q max_credit).2 = []) := by
  obtain ⟨j, _, e1, _, _, _, _, _, e7, e8, _⟩ := push_txq_spec nw q max_credit
  have hn := newly_handed_of_append _ _ _ e1
  have hs : (newly_handed nw (nrc_push_txq_improved nw q max_credit).2).map Prod.snd
      = (nw.txqs q).pending.take j := by
    rw [hn, List.map_map]
    simp [Function.comp_def]
  rw [hs]
  refine ⟨e7, ?_, ?_⟩
  · intro hB hA
    have hm : max 0 (min (nrc_ac_credit nw (nw.txqs q).hw_queue) max_credit)
        = min (nrc_ac_credit nw (nw.txqs q).hw_queue) max_credit :=
      max_eq_right (le_min hA hB)
    rw [hm] at e7
    exact ⟨le_trans e7 (min_le_right _ _), le_trans e7 (min_le_left _ _)⟩
  · intro h
    rw [min_comm] at h
    rw [hn, (e8 h).1]
    simp

/-! ## C5: a drain that uses up its budget exactly -/

/-- C5 (evaluation of the code): with two one-credit frames pending and a
credit limit of one, `nrc_push_txq_improved` hands over the first frame, leaves
the loop because `used_credit < credit_limit` no longer holds, and returns 0
although the second frame is still pending; `process_txqs_by_ac_priority` then
unlinks the queue from the active list. -/
theorem push_txq_exact_budget_returns_drained :
    (nrc_push_txq_improved exact_budget_state 0 1).1 = 0 ∧
    ((nrc_push_txq_improved exact_budget_state 0 1).2.txqs 0).pending = [frame 1 2] ∧
    (process_txqs_by_ac_priority exact_budget_state IEEE80211_AC_BE 1).map
      (fun r => (r.1.txq, (r.1.txqs 0).pending)) = some ([], [frame 1 2]) := by
  decide

/-! ## C6: a kept queue has pending frames -/

/-- C6 (counterexample): with no credit available, the drain of an empty queue
returns 1, and the queue holds no pending frame afterwards. -/
theorem push_txq_empty_queue_no_credit :
    (empty_queue_state.txqs 0).pending = [] ∧
    nrc_ac_credit empty_queue_state (empty_queue_state.txqs 0).hw_queue = 0 ∧
    (nrc_push_txq_improved empty_queue_state 0 1).1 = 1 ∧
    ((nrc_push_txq_improved empty_queue_state 0 1).2.txqs 0).pending = [] := by
  decide

/-- C6 (amended): when the credit limit `min(available, max_credit)` is
positive, a drain that returns 1 leaves at least one frame pending, and the
drain of an empty queue returns 0; when the limit is not positive the drain
returns 1 and leaves the state as it is. -/
theorem push_txq_exhausted_has_pending (nw : Nrc) (q : TxqId) (max_credit : Int) :
    (0 < min (nrc_ac_credit nw (nw.txqs q).hw_queue) max_credit →
      ((nrc_push_txq_improved nw q max_credit).1 = 1 →
        ((nrc_push_txq_improved nw q max_credit).2.txqs q).pending ≠ []) ∧
      ((nw.txqs q).pending = [] → (nrc_push_txq_improved nw q max_credit).1 = 0)) ∧
    (min (nrc_ac_credit nw (nw.txqs q).hw_queue) max_credit ≤ 0 →
      nrc_push_txq_improved nw q max_credit = (1, nw)) := by
  obtain ⟨j, _, _, e2, _, _, _, _, _, e8, e9⟩ := push_txq_spec nw q max_credit
  refine ⟨fun hpos => ⟨?_, ?_⟩, fun h => (e8 h).2⟩
  · intro h1
    rcases e9 hpos with h0 | ⟨_, hne⟩
    · rw [h0] at h1
      exact absurd h1 (by decide)
    · rw [e2]
      exact hne
  · intro hemp
    rcases e9 hpos with h0 | ⟨_, hne⟩
    · exact h0
    · rw [hemp] at hne
      simp at hne

/-! ## C7: a pass under backpressure -/

/-- C7: when the active list is empty or the credit of the four classes adds
up to at most zero, `nrc_tx_tasklet_improved` returns the state it was given: no
frame is handed over, and the active list, the queues and the counters are
unchanged. -/
theorem tasklet_noop_under_backpressure (nw : Nrc)
    (h : nw.txq = [] ∨ total_available_credit nw ≤ 0) :
    nrc_tx_tasklet_improved nw = some nw := by
  unfold nrc_tx_tasklet_improved count_total_active_txqs
  rcases h with h | h
  · simp [h]
  · by_cases h0 : nw.txq.length = 0
    · simp [h0]
    · simp [h0, h]

/-- C7 (witness): an active list holding one backlogged queue, and no credit. -/
theorem tasklet_noop_under_backpressure_witness :
    (backpressure_state.txq = [] ∨ total_available_credit backpressure_state ≤ 0) ∧
    nrc_tx_tasklet_improved backpressure_state = some backpressure_state :=
  ⟨Or.inr (by decide), tasklet_noop_under_backpressure backpressure_state (Or.inr (by decide))⟩

/-! ## The traversal of the active list -/

theorem dropWhile_ne_append (a : List TxqId) (x : TxqId) (c : List TxqId) (h : x ∉ a) :
    (a ++ x :: c).dropWhile (fun y => y != x) = x :: c := by
  induction a with
  | nil => simp [List.dropWhile]
  | cons y a ih =>
    have hy : y ≠ x := fun e => h (by simp [e])
    have ha : x ∉ a := fun e => h (by simp [e])
    have hb : (y != x) = true := by simp [hy]
    rw [List.cons_append, List.dropWhile_cons, hb]
    exact ih ha

theorem nodup_split {l : List TxqId} {q : TxqId} (hn : l.Nodup) (hq : q ∈ l) :
    ∃ a b, l = a ++ q :: b ∧ q ∉ a ∧ q ∉ b := by
  obtain ⟨a, b, rfl⟩ := List.append_of_mem hq
  refine ⟨a, b, rfl, ?_, ?_⟩
  · intro ha
    have := (List.nodup_append.mp hn).2.2 ha (List.mem_cons_self q b)
    exact this
  · have h2 := (List.nodup_append.mp hn).2.1
    exact (List.nodup_cons.mp h2).1

theorem list_next_split (a b : List TxqId) (q : TxqId) (hq : q ∉ a) :
    list_next (a ++ q :: b) q = b.head? := by
  unfold list_next
  rw [dropWhile_ne_append a q b hq]
  simp

theorem erase_split (a b : List TxqId) (q : TxqId) (hq : q ∉ a) :
    (a ++ q :: b).erase q = a ++ b := by
  rw [List.erase_append_right _ hq]
  simp

theorem cursor_dist_split (a b : List TxqId) (q : TxqId) (hq : q ∉ a) :
    cursor_dist (a ++ q :: b) (some q) = b.length + 1 := by
  simp only [cursor_dist]
  rw [dropWhile_ne_append a q b hq]
  simp

theorem cursor_dist_le (l : List TxqId) (pos : Option TxqId) : cursor_dist l pos ≤ l.length := by
  cases pos with
  | none => simp [cursor_dist]
  | some q =>
    simp only [cursor_dist]
    exact (List.dropWhile_sublist _).length_le

theorem cursor_dist_head (a b : List TxqId) (ha : ∀ x ∈ b, x ∉ a) :
    cursor_dist (a ++ b) b.head? ≤ b.length := by
  cases b with
  | nil => simp [cursor_dist]
  | cons x c =>
    simp only [List.head?_cons]
    rw [cursor_dist_split a c x (ha x (List.mem_cons_self x c))]
    simp

/-- One visit of a queue of the target class either unlinks the queue, or moves
it to the tail and charges at least one credit. -/
theorem txq_visit_txq (target : Nat) (cpt : Int) (hc : 1 ≤ cpt) (q : TxqId) (nw : Nrc)
    (rem : Int) (hrem : 0 < rem) (hac : (nw.txqs q).hw_queue = target) :
    ((txq_visit target cpt q nw rem).1.txq = list_del_init nw.txq q ∧
      (txq_visit target cpt q nw rem).2 ≤ rem) ∨
    ((txq_visit target cpt q nw rem).1.txq = list_move_tail nw.txq q ∧
      (txq_visit target cpt q nw rem).2 + 1 ≤ rem ∧ 0 ≤ (txq_visit target cpt q nw rem).2) := by
  obtain ⟨j, _, _, _, _, e4, _, e6, _⟩ := push_txq_spec nw q (min cpt rem)
  have halloc : 1 ≤ min cpt rem := le_min hc (by omega)
  have hle : min cpt rem ≤ rem := min_le_right _ _
  simp only [txq_visit]
  generalize nrc_push_txq_improved nw q (min cpt rem) = R at e4 e6 ⊢
  obtain ⟨ret, nw1⟩ := R
  simp only at e4 e6 ⊢
  have htxq : nw1.txq = nw.txq := e6.1
  by_cases hret : ret = 0
  · left
    simp only [hret, if_true, htxq, true_and]
    split
    · rw [min_self]
      omega
    · rw [min_eq_right (by omega)]
      omega
  · right
    simp only [hret, if_false, htxq, true_and]
    have hcount : count_active_txqs_by_ac
        { nw1 with push_log := nw1.push_log ++ [PushCall.mk q (min cpt rem) ret],
                   txq := list_move_tail nw.txq q } target > 0 := by
      unfold count_active_txqs_by_ac
      apply List.countP_pos_iff.mpr
      refine ⟨q, ?_, ?_⟩
      · simp [list_move_tail]
      · simp [e4, hac]
    simp only [hcount, if_true, min_self]
    omega

/-- The traversal ends within the iteration bound and keeps the active list
free of duplicates. -/
theorem txq_walk_terminates (target : Nat) (cpt : Int) (hc : 1 ≤ cpt) :
    ∀ (fuel : Nat) (pos : Option TxqId) (nw : Nrc) (rem : Int),
      nw.txq.Nodup → (∀ q, pos = some q → q ∈ nw.txq) →
      rem.toNat * (nw.txq.length + 1) + cursor_dist nw.txq pos ≤ fuel →
      ∃ r, txq_walk target cpt fuel pos nw rem = some r ∧ r.1.txq.Nodup := by
  intro fuel
  induction fuel with
  | zero =>
    intro pos nw rem hn hpos hfuel
    cases pos with
    | none => exact ⟨(nw, rem), by simp [txq_walk], hn⟩
    | some q =>
      obtain ⟨a, b, hl, hqa, _⟩ := nodup_split hn (hpos q rfl)
      rw [hl, cursor_dist_split a b q hqa] at hfuel
      omega
  | succ fuel ih =>
    intro pos nw rem hn hpos hfuel
    cases pos with
    | none => exact ⟨(nw, rem), by simp [txq_walk], hn⟩
    | some q =>
      obtain ⟨a, b, hl, hqa, hqb⟩ := nodup_split hn (hpos q rfl)
      have hnext : list_next nw.txq q = b.head? := by rw [hl, list_next_split a b q hqa]
      have hdist : cursor_dist nw.txq (some q) = b.length + 1 := by
        rw [hl, cursor_dist_split a b q hqa]
      have hlen : nw.txq.length = a.length + b.length + 1 := by
        rw [hl]
        simp
        omega
      have hn2 : (a ++ q :: b).Nodup := hl ▸ hn
      have hdisj : ∀ x ∈ b, x ∉ a := by
        intro x hx hxa
        exact (List.nodup_append.mp hn2).2.2 hxa (List.mem_cons_of_mem q hx)
      have hab : (a ++ b).Nodup := by
        have h1 := List.nodup_append.mp hn2
        refine List.nodup_append.mpr ⟨h1.1, (List.nodup_cons.mp h1.2.1).2, ?_⟩
        intro x hxa hxb
        exact hdisj x hxb hxa
      have hhead : ∀ x, b.head? = some x → x ∈ b := by
        intro x hx
        cases b with
        | nil => simp at hx
        | cons y c =>
          simp at hx
          simp [hx]
      rw [txq_walk]
      simp only [hnext]
      by_cases hac : (nw.txqs q).hw_queue ≠ target
      · rw [if_pos hac]
        apply ih
        · exact hn
        · intro x hx
          rw [hl]
          exact List.mem_append_right a (List.mem_cons_of_mem q (hhead x hx))
        · have h1 : cursor_dist nw.txq b.head? ≤ b.length := by
            have h2 := cursor_dist_head (a ++ [q]) b (by
              intro x hx hxa
              rcases List.mem_append.mp hxa with h | h
              · exact hdisj x hx h
              · have hxq : x = q := by simpa using h
                exact hqb (hxq ▸ hx))
            rw [hl]
            simpa using h2
          omega
      · rw [if_neg hac]
        have hac2 : (nw.txqs q).hw_queue = target := not_not.mp hac
        by_cases hrem : rem ≤ 0
        · rw [if_pos hrem]
          exact ⟨(nw, rem), rfl, hn⟩
        · rw [if_neg hrem]
          have hv := txq_visit_txq target cpt hc q nw rem (not_le.mp hrem) hac2
          have hdel : list_del_init nw.txq q = a ++ b := by
            rw [list_del_init, hl, erase_split a b q hqa]
          have hmove : list_move_tail nw.txq q = a ++ b ++ [q] := by
            rw [list_move_tail, hl, erase_split a b q hqa]
          rcases hv with ⟨h1, h2⟩ | ⟨h1, h2, h3⟩
          · apply ih
            · rw [h1, hdel]
              exact hab
            · intro x hx
              rw [h1, hdel]
              exact List.mem_append_right a (hhead x hx)
            · rw [h1, hdel]
              have hd := cursor_dist_head a b hdisj
              have hr : (txq_visit target cpt q nw rem).2.toNat ≤ rem.toNat := by omega
              have hm := Nat.mul_le_mul hr (Nat.le_succ ((a ++ b).length + 1))
              simp only [List.length_append] at hm hd ⊢
              rw [hdist, hlen] at hfuel
              have hm2 : rem.toNat * (a.length + b.length + 1)
                  ≤ rem.toNat * (a.length + b.length + 1 + 1) :=
                Nat.mul_le_mul_left _ (Nat.le_succ _)
              have hm3 := Nat.mul_le_mul_right (a.length + b.length + 1) hr
              omega
          · apply ih
            · rw [h1, hmove]
              refine List.nodup_append.mpr ⟨hab, List.nodup_singleton q, ?_⟩
              intro x hx hxq
              simp at hxq
              rw [hxq] at hx
              rcases List.mem_append.mp hx with h | h
              · exact hqa h
              · exact hqb h
            · intro x hx
              rw [h1, hmove]
              exact List.mem_append_left _ (List.mem_append_right a (hhead x hx))
            · have hd := cursor_dist_le (txq_visit target cpt q nw rem).1.txq b.head?
              have hl2 : (txq_visit target cpt q nw rem).1.txq.length = nw.txq.length := by
                rw [h1, hmove, hlen]
                simp
                omega
              rw [hl2] at hd ⊢
              rw [hdist] at hfuel
              have hr : (txq_visit target cpt q nw rem).2.toNat + 1 ≤ rem.toNat := by omega
              have hm := Nat.mul_le_mul_right (nw.txq.length + 1) hr
              rw [Nat.add_mul] at hm
              omega

/-- `process_txqs_by_ac_priority` returns, and keeps the active list free of
duplicates. -/
theorem process_txqs_terminates (nw : Nrc) (target : Nat) (rem : Int) (hn : nw.txq.Nodup) :
    ∃ r, process_txqs_by_ac_priority nw target rem = some r ∧ r.1.txq.Nodup := by
  unfold process_txqs_by_ac_priority
  by_cases h1 : rem ≤ 0
  · exact ⟨(nw, rem), by rw [if_pos h1], hn⟩
  · rw [if_neg h1]
    by_cases h2 : count_active_txqs_by_ac nw target = 0
    · exact ⟨(nw, rem), by simp only [h2, if_true], hn⟩
    · simp only [h2, if_false]
      apply txq_walk_terminates target _ (le_max_left _ _)
      · exact hn
      · intro q hq
        exact List.mem_of_mem_head? hq
      · unfold walk_fuel
        have := cursor_dist_le nw.txq nw.txq.head?
        omega

/-- The loop over the classes returns, and keeps the active list free of
duplicates. -/
theorem tasklet_loop_terminates : ∀ (acs : List Nat) (nw : Nrc) (rem : Int), nw.txq.Nodup →
    ∃ r, tasklet_loop acs nw rem = some r ∧ r.1.txq.Nodup := by
  intro acs
  induction acs with
  | nil =>
    intro nw rem hn
    exact ⟨(nw, rem), rfl, hn⟩
  | cons ac rest ih =>
    intro nw rem hn
    obtain ⟨r, hr, hrn⟩ := process_txqs_terminates nw ac rem hn
    rw [tasklet_loop, hr]
    by_cases h : r.2 ≤ 0
    · exact ⟨r, by simp only [h, if_true], hrn⟩
    · simp only [h, if_false]
      exact ih r.1 r.2 hrn

theorem tasklet_terminates (nw : Nrc) (hn : nw.txq.Nodup) :
    ∃ r, nrc_tx_tasklet_improved nw = some r ∧ r.txq.Nodup := by
  unfold nrc_tx_tasklet_improved
  by_cases h1 : count_total_active_txqs nw = 0
  · exact ⟨nw, by rw [if_pos h1], hn⟩
  · rw [if_neg h1]
    by_cases h2 : total_available_credit nw ≤ 0
    · exact ⟨nw, by rw [if_pos h2], hn⟩
    · rw [if_neg h2]
      obtain ⟨r, hr, hrn⟩ := tasklet_loop_terminates ac_priority_order nw
        (total_available_credit nw) hn
      exact ⟨r.1, by rw [hr]; rfl, hrn⟩

/-! ## C2: no queue is linked twice -/

/-- C2: from an active list without duplicates, an activation
(`nrc_wake_tx_queue_improved`), a whole pass (`nrc_tx_tasklet_improved`), a call
of `process_txqs_by_ac_priority` for any class and budget, and each single
`list_del_init` and `list_move_tail` give an active list without duplicates;
the pass and the class scheduler do return. -/
theorem active_list_nodup (nw : Nrc) (q : TxqId) (hn : nw.txq.Nodup) :
    (nrc_wake_tx_queue_improved nw q).txq.Nodup ∧
    (∃ r, nrc_tx_tasklet_improved nw = some r ∧ r.txq.Nodup) ∧
    (∀ ac rem, ∃ r, process_txqs_by_ac_priority nw ac rem = some r ∧ r.1.txq.Nodup) ∧
    (list_del_init nw.txq q).Nodup ∧ (list_move_tail nw.txq q).Nodup := by
  have hdel : (nw.txq.erase q).Nodup := hn.erase q
  refine ⟨?_, tasklet_terminates nw hn, fun ac rem => process_txqs_terminates nw ac rem hn,
    hdel, ?_⟩
  · have h1 : (nrc_wake_tx_queue_improved nw q).txq
        = (if q ∈ nw.txq then nw.txq else nw.txq ++ [q]) := by
      unfold nrc_wake_tx_queue_improved list_add_tail
      by_cases hps : nw.drv_state = DrvState.NRC_DRV_PS <;> by_cases hq : q ∈ nw.txq <;>
        simp [hps, hq]
    rw [h1]
    by_cases hq : q ∈ nw.txq
    · rw [if_pos hq]
      exact hn
    · rw [if_neg hq]
      refine List.nodup_append.mpr ⟨hn, List.nodup_singleton q, ?_⟩
      intro x hx hxq
      have : x = q := by simpa using hxq
      exact hq (this ▸ hx)
  · unfold list_move_tail
    refine List.nodup_append.mpr ⟨hdel, List.nodup_singleton q, ?_⟩
    intro x hx hxq
    have : x = q := by simpa using hxq
    rw [this] at hx
    exact (List.Nodup.mem_erase_iff hn).mp hx |>.1 rfl

/-- C2 (witness): the active list `[0, 1]` of a Voice and a Background queue. -/
theorem active_list_nodup_witness :
    priority_state.txq.Nodup ∧
    (nrc_wake_tx_queue_improved priority_state 2).txq.Nodup ∧
    (∃ r, nrc_tx_tasklet_improved priority_state = some r ∧ r.txq.Nodup) ∧
    (∀ ac rem, ∃ r, process_txqs_by_ac_priority priority_state ac rem = some r ∧
      r.1.txq.Nodup) ∧
    (list_del_init priority_state.txq 2).Nodup ∧ (list_move_tail priority_state.txq 2).Nodup :=
  ⟨by decide, active_list_nodup priority_state 2 (by decide)⟩

/-! ## C8: priority under scarce credit -/

/-- C8 (evaluation of the code): the total credit 5 is below the cost 6 of the
Voice backlog.  The Voice drain uses its credit limit 2 exactly and returns 0,
the Voice queue is unlinked with four frames pending, nothing is charged to the
remaining credit, and the pass goes on to hand the Background frame to
`nrc_mac_tx`. -/
theorem tasklet_background_served_after_voice :
    total_available_credit priority_state = 5 ∧
    credit_sum priority_state (priority_state.txqs 0).pending = 6 ∧
    (nrc_tx_tasklet_improved priority_state).map
      (fun r => (handed r, r.txq, ((r.txqs 0).pending).length))
      = some ([(0, frame 1 1), (0, frame 1 2), (1, frame 1 9)], [], 4) ∧
    (process_txqs_by_ac_priority priority_state IEEE80211_AC_VO 5).map
      (fun r => (r.1.push_log, r.2)) = some ([PushCall.mk 0 5 0], 5) := by
  decide

/-! ## C9: scenario 1 -/

/-- C9 (evaluation of the code): from credit `{Voice: 2, Video: 0, BE: 5,
BK: 0}` and one Voice queue with frames costing `[1, 1, 1]`, the pass hands over
the first two frames and leaves the third pending, but the drain (called with
budget 7) returns 0, the queue is unlinked from the active list, and the
remaining credit after the Voice class is still 7. -/
theorem tasklet_scenario1_evaluation :
    (nrc_tx_tasklet_improved scenario1_state).map
      (fun r => (handed r, (r.txqs 0).pending, r.push_log, r.txq))
      = some ([(0, frame 1 1), (0, frame 1 2)], [frame 1 3], [PushCall.mk 0 7 0], []) ∧
    (process_txqs_by_ac_priority scenario1_state IEEE80211_AC_VO 7).map
      (fun r => (r.1.txq, r.2)) = some ([], 7) := by
  decide

/-! ## C10: scenario 2 -/

/-- A drain whose budget is below the cost of the head frame returns 1 and
leaves the state as it is. -/
theorem push_txq_no_fit (nw : Nrc) (q : TxqId) (B : Int) (f : SkBuff) (rest : List SkBuff)
    (hp : (nw.txqs q).pending = f :: rest) (hcost : B < get_packet_credit_requirement nw f) :
    nrc_push_txq_improved nw q B = (1, nw) := by
  unfold nrc_push_txq_improved
  by_cases hlim : min (nrc_ac_credit nw (nw.txqs q).hw_queue) B ≤ 0
  · simp only [hlim, if_true]
  · simp only [hlim, if_false]
    have h1 : (0 : Int) < min (nrc_ac_credit nw (nw.txqs q).hw_queue) B := not_le.mp hlim
    have h2 : 0 + get_packet_credit_requirement nw f
        > min (nrc_ac_credit nw (nw.txqs q).hw_queue) B := by
      have := min_le_right (nrc_ac_credit nw (nw.txqs q).hw_queue) B
      omega
    rw [hp, push_loop]
    simp only [h1, h2, if_true]

/-- A visit whose allocation is below the cost of the head frame moves the queue
to the tail, records the call, and charges the allocation. -/
theorem txq_visit_no_fit (target : Nat) (cpt : Int) (q : TxqId) (nw : Nrc) (rem : Int)
    (f : SkBuff) (rest : List SkBuff)
    (hp : (nw.txqs q).pending = f :: rest)
    (hcost : min cpt rem < get_packet_credit_requirement nw f)
    (hac : (nw.txqs q).hw_queue = target) :
    txq_visit target cpt q nw rem
      = ({ nw with push_log := nw.push_log ++ [PushCall.mk q (min cpt rem) 1],
                   txq := list_move_tail nw.txq q }, rem - min cpt rem) := by
  have hcount : count_active_txqs_by_ac
      { nw with push_log := nw.push_log ++ [PushCall.mk q (min cpt rem) 1],
                 txq := list_move_tail nw.txq q } target > 0 := by
    unfold count_active_txqs_by_ac
    apply List.countP_pos_iff.mpr
    refine ⟨q, ?_, ?_⟩
    · simp [list_move_tail]
    · simp [hac]
  simp only [txq_visit, push_txq_no_fit nw q (min cpt rem) f rest hp hcost]
  simp only [one_ne_zero, if_false, hcount, if_true, min_self]

/-- C10: with two Best-Effort queues `a`, `b` in the active list, each holding
one frame that costs 3 credits, `process_txqs_by_ac_priority` for Best Effort
with 5 credits remaining computes the fair share 2, drains `a` with budget 2,
`b` with budget 2 and `a` again with budget 1, every drain returning 1; no frame
is handed to `nrc_mac_tx`, both queues stay in the active list with their frame
pending, and the remaining credit ends at 0. -/
theorem process_be_scenario2 (nw : Nrc) (a b : TxqId) (fa fb : SkBuff)
    (hab : a ≠ b) (htxq : nw.txq = [a, b])
    (ha : (nw.txqs a).hw_queue = IEEE80211_AC_BE) (hb : (nw.txqs b).hw_queue = IEEE80211_AC_BE)
    (hpa : (nw.txqs a).pending = [fa]) (hpb : (nw.txqs b).pending = [fb])
    (hca : get_packet_credit_requirement nw fa = 3)
    (hcb : get_packet_credit_requirement nw fb = 3) :
    max 1 (Int.tdiv 5 (count_active_txqs_by_ac nw IEEE80211_AC_BE : Nat)) = 2 ∧
    ∃ r, process_txqs_by_ac_priority nw IEEE80211_AC_BE 5 = some r ∧
      r.1.push_log = nw.push_log ++ [PushCall.mk a 2 1, PushCall.mk b 2 1, PushCall.mk a 1 1] ∧
      newly_handed nw r.1 = [] ∧
      r.1.txq = [b, a] ∧
      (r.1.txqs a).pending = [fa] ∧ (r.1.txqs b).pending = [fb] ∧
      r.2 = 0 := by
  have hba : b ≠ a := fun h => hab h.symm
  have hcount : count_active_txqs_by_ac nw IEEE80211_AC_BE = 2 := by
    simp [count_active_txqs_by_ac, htxq, ha, hb]
  have hshare : max 1 (Int.tdiv 5 ((2 : Nat) : Int)) = 2 := by decide
  have hfuel : walk_fuel nw 5 = 14 + 4 := by
    simp [walk_fuel, htxq]
  have hn1 : list_next [a, b] a = some b := by
    simp [list_next, List.dropWhile]
  have hn2 : list_next [b, a] b = some a := by
    simp [list_next, List.dropWhile]
  have hm1 : list_move_tail [a, b] a = [b, a] := by
    simp [list_move_tail, hba]
  have hm2 : list_move_tail [b, a] b = [a, b] := by
    simp [list_move_tail, hab]
  have hwalk : ∀ n, txq_walk IEEE80211_AC_BE 2 (n + 4) (some a) nw 5
      = some ({ nw with
          push_log := nw.push_log ++ [PushCall.mk a 2 1, PushCall.mk b 2 1, PushCall.mk a 1 1],
          txq := [b, a] }, 0) := by
    intro n
    have e1 : (min 2 5 : Int) = 2 := by decide
    have e2 : (min 2 3 : Int) = 2 := by decide
    have e3 : (min 2 1 : Int) = 1 := by decide
    have v1 := txq_visit_no_fit IEEE80211_AC_BE 2 a nw 5 fa [] hpa (by rw [hca]; decide) ha
    rw [e1, htxq, hm1] at v1
    have v2 := txq_visit_no_fit IEEE80211_AC_BE 2 b
      { nw with push_log := nw.push_log ++ [PushCall.mk a 2 1], txq := [b, a] } (5 - 2)
      fb [] hpb (by
        show min 2 (5 - 2) < get_packet_credit_requirement nw fb
        rw [hcb]
        decide) hb
    have v3 := txq_visit_no_fit IEEE80211_AC_BE 2 a
      { nw with push_log := nw.push_log ++ [PushCall.mk a 2 1] ++ [PushCall.mk b 2 1],
                txq := [a, b] } (5 - 2 - 2)
      fa [] hpa (by
        show min 2 (5 - 2 - 2) < get_packet_credit_requirement nw fa
        rw [hca]
        decide) ha
    have e2b : (min 2 (5 - 2) : Int) = 2 := by decide
    have e3b : (min 2 (5 - 2 - 2) : Int) = 1 := by decide
    rw [e2b] at v2
    rw [e3b] at v3
    simp only [hm2] at v2
    simp only [hm1] at v3
    rw [show n + 4 = (n + 3) + 1 from rfl, txq_walk]
    simp only [ha, ne_eq, not_true_eq_false, if_false, htxq, hn1, v1]
    rw [if_neg (by decide)]
    rw [show n + 3 = (n + 2) + 1 from rfl, txq_walk]
    simp only [hb, ne_eq, not_true_eq_false, if_false, hn2, v2]
    rw [if_neg (by decide)]
    rw [show n + 2 = (n + 1) + 1 from rfl, txq_walk]
    simp only [ha, ne_eq, not_true_eq_false, if_false, hn1, v3]
    rw [if_neg (by decide)]
    rw [txq_walk]
    simp only [hb, ne_eq, not_true_eq_false, if_false]
    rw [if_pos (by decide)]
    simp
  refine ⟨by rw [hcount]; exact hshare, ?_⟩
  refine ⟨({ nw with
      push_log := nw.push_log ++ [PushCall.mk a 2 1, PushCall.mk b 2 1, PushCall.mk a 1 1],
      txq := [b, a] }, 0), ?_, ?_⟩
  · unfold process_txqs_by_ac_priority
    rw [if_neg (by decide)]
    simp only [hcount, hshare, hfuel, htxq, List.head?_cons]
    rw [if_neg (by decide)]
    exact hwalk 14
  · refine ⟨rfl, ?_, rfl, hpa, hpb, rfl⟩
    simp [newly_handed, handed]

/-- C10 (witness): queues 0 and 1, frames of 300 bytes with 100-byte buffers. -/
theorem process_be_scenario2_witness :
    max 1 (Int.tdiv 5 (count_active_txqs_by_ac scenario2_state IEEE80211_AC_BE : Nat)) = 2 ∧
    ∃ r, process_txqs_by_ac_priority scenario2_state IEEE80211_AC_BE 5 = some r ∧
      r.1.push_log = scenario2_state.push_log
        ++ [PushCall.mk 0 2 1, PushCall.mk 1 2 1, PushCall.mk 0 1 1] ∧
      newly_handed scenario2_state r.1 = [] ∧
      r.1.txq = [1, 0] ∧
      (r.1.txqs 0).pending = [frame 3 0] ∧ (r.1.txqs 1).pending = [frame 3 1] ∧
      r.2 = 0 :=
  process_be_scenario2 scenario2_state 0 1 (frame 3 0) (frame 3 1) (by decide) (by decide)
    (by decide) (by decide) (by decide) (by decide) (by decide) (by decide)

/-! ## C15: credit consumption in `nrc_mac_tx` -/

theorem div_round_up_ceil (n d : Nat) (hd : 0 < d) :
    n ≤ DIV_ROUND_UP n d * d ∧ DIV_ROUND_UP n d * d < n + d := by
  unfold DIV_ROUND_UP
  have h1 := Nat.div_add_mod (n + d - 1) d
  have h2 := Nat.mod_lt (n + d - 1) hd
  have h3 : (n + d - 1) / d * d = d * ((n + d - 1) / d) := Nat.mul_comm _ _
  constructor <;> omega

/-- C15: with `n = DIV_ROUND_UP(skb->len, buffer_size)` (the ceiling of
`len / buffer_size`) and `ac` the local variable of `nrc_mac_tx`, which is 0:
if `tx_credit[ac] >= n`, `tx_credit[ac]` goes down by `n`, `tx_pend[ac]` goes up
by `n` and the frame goes to `nrc_xmit_frame`; otherwise `tx_credit` and
`tx_pend` are unchanged and the frame goes to `nrc_enqueue_txq`; no other
counter changes, and credit that was non-negative stays non-negative. -/
theorem mac_tx_credit_conditional (nw : Nrc) (src : TxqId) (skb : SkBuff)
    (hbs : 0 < nw.buffer_size) (hc : ∀ i, 0 ≤ nw.tx_credit i) :
    (skb.len ≤ DIV_ROUND_UP skb.len nw.buffer_size * nw.buffer_size ∧
      DIV_ROUND_UP skb.len nw.buffer_size * nw.buffer_size < skb.len + nw.buffer_size) ∧
    (nw.tx_credit 0 ≥ (DIV_ROUND_UP skb.len nw.buffer_size : Nat) →
      (nrc_mac_tx nw src skb).tx_credit 0
        = nw.tx_credit 0 - (DIV_ROUND_UP skb.len nw.buffer_size : Nat) ∧
      (nrc_mac_tx nw src skb).tx_pend 0
        = nw.tx_pend 0 + (DIV_ROUND_UP skb.len nw.buffer_size : Nat) ∧
      (nrc_mac_tx nw src skb).tx_log = nw.tx_log ++ [TxEvent.mk src skb true]) ∧
    (nw.tx_credit 0 < (DIV_ROUND_UP skb.len nw.buffer_size : Nat) →
      (nrc_mac_tx nw src skb).tx_credit = nw.tx_credit ∧
      (nrc_mac_tx nw src skb).tx_pend = nw.tx_pend ∧
      (nrc_mac_tx nw src skb).tx_log = nw.tx_log ++ [TxEvent.mk src skb false]) ∧
    (∀ i, i ≠ 0 → (nrc_mac_tx nw src skb).tx_credit i = nw.tx_credit i ∧
      (nrc_mac_tx nw src skb).tx_pend i = nw.tx_pend i) ∧
    (∀ i, 0 ≤ (nrc_mac_tx nw src skb).tx_credit i) := by
  refine ⟨div_round_up_ceil skb.len nw.buffer_size hbs, ?_, ?_, ?_, ?_⟩
  · intro h
    simp [nrc_mac_tx, h]
  · intro h
    have h2 : ¬ nw.tx_credit 0 ≥ (DIV_ROUND_UP skb.len nw.buffer_size : Nat) := not_le.mpr h
    simp only [nrc_mac_tx, h2, if_false, and_self]
  · intro i hi
    by_cases h : nw.tx_credit 0 ≥ (DIV_ROUND_UP skb.len nw.buffer_size : Nat)
    · simp [nrc_mac_tx, h, Function.update_noteq hi]
    · simp only [nrc_mac_tx, h, if_false, and_self]
  · intro i
    by_cases h : nw.tx_credit 0 ≥ (DIV_ROUND_UP skb.len nw.buffer_size : Nat)
    · by_cases hi : i = 0
      · subst hi
        simp only [nrc_mac_tx, h, if_true, Function.update_same]
        omega
      · simp only [nrc_mac_tx, h, if_true, Function.update_noteq hi]
        exact hc i
    · simp only [nrc_mac_tx, h, if_false]
      exact hc i

/-- C15 (witness): a 100-byte frame, 100-byte buffers, one credit in class 2. -/
theorem mac_tx_credit_conditional_witness :
    (0 < exact_budget_state.buffer_size ∧ ∀ i, 0 ≤ exact_budget_state.tx_credit i) ∧
    (∀ i, 0 ≤ (nrc_mac_tx exact_budget_state 0 (frame 1 1)).tx_credit i) :=
  ⟨⟨by decide, fun i => by unfold exact_budget_state fresh; dsimp only; split <;> decide⟩,
    (mac_tx_credit_conditional exact_budget_state 0 (frame 1 1) (by decide)
      (fun i => by unfold exact_budget_state fresh; dsimp only; split <;> decide)).2.2.2.2⟩

/-! ## One visit of the class scheduler -/

/-- The return value of the drain is 0 or 1. -/
theorem push_txq_ret (nw : Nrc) (q : TxqId) (B : Int) :
    (nrc_push_txq_improved nw q B).1 = 0 ∨ (nrc_push_txq_improved nw q B).1 = 1 := by
  obtain ⟨j, _, _, _, _, _, _, _, _, e8, e9⟩ := push_txq_spec nw q B
  by_cases h : min (nrc_ac_credit nw (nw.txqs q).hw_queue) B ≤ 0
  · right
    rw [(e8 h).2]
  · rcases e9 (not_le.mp h) with h0 | ⟨h1, _⟩
    · exact Or.inl h0
    · exact Or.inr h1

/-- Everything one loop body of `process_txqs_by_ac_priority` does for the queue
`q`: the drain call it records, what happens to the active list, which frames
are handed over, and what is charged to the remaining credit. -/
theorem txq_visit_spec (target : Nat) (cpt : Int) (q : TxqId) (nw : Nrc) (rem : Int) :
    ∃ ret j,
      (txq_visit target cpt q nw rem).1.push_log
        = nw.push_log ++ [PushCall.mk q (min cpt rem) ret] ∧
      ((ret = 0 ∧ (txq_visit target cpt q nw rem).1.txq = list_del_init nw.txq q) ∨
        (ret = 1 ∧ (txq_visit target cpt q nw rem).1.txq = list_move_tail nw.txq q)) ∧
      handed (txq_visit target cpt q nw rem).1
        = handed nw ++ ((nw.txqs q).pending.take j).map (fun f => (q, f)) ∧
      (∀ p, ((txq_visit target cpt q nw rem).1.txqs p).hw_queue = (nw.txqs p).hw_queue) ∧
      (∀ p, p ≠ q → (txq_visit target cpt q nw rem).1.txqs p = nw.txqs p) ∧
      (txq_visit target cpt q nw rem).1.buffer_size = nw.buffer_size ∧
      (txq_visit target cpt q nw rem).2
        = rem - min (min cpt rem)
            (if count_active_txqs_by_ac (txq_visit target cpt q nw rem).1 target > 0
              then min cpt rem else 0) := by
  obtain ⟨j, _, e1, _, _, e4, e5, e6, _⟩ := push_txq_spec nw q (min cpt rem)
  have hret := push_txq_ret nw q (min cpt rem)
  simp only [txq_visit]
  generalize nrc_push_txq_improved nw q (min cpt rem) = R at e1 e4 e5 e6 hret ⊢
  obtain ⟨ret, nw1⟩ := R
  simp only at e1 e4 e5 e6 hret ⊢
  have htxq : nw1.txq = nw.txq := e6.1
  have hlog : nw1.push_log = nw.push_log := e6.2.2.1
  have hcls : ∀ p, (nw1.txqs p).hw_queue = (nw.txqs p).hw_queue := by
    intro p
    by_cases hp : p = q
    · rw [hp, e4]
    · rw [e5 p hp]
  refine ⟨ret, j, ?_, ?_, ?_, ?_, ?_, ?_, ?_⟩
  · rcases hret with h | h <;> simp [h, hlog]
  · rcases hret with h | h
    · left
      simp [h, htxq]
    · right
      simp [h, htxq]
  · rcases hret with h | h <;> simpa [h, handed] using e1
  · intro p
    rcases hret with h | h <;> simpa [h] using hcls p
  · intro p hp
    rcases hret with h | h <;> simpa [h] using e5 p hp
  · rcases hret with h | h <;> simpa [h] using e6.2.1
  · trivial

/-! ## C16: the cost of a frame -/

theorem credit_requirement_pos (nw : Nrc) (skb : SkBuff) (hbs : 0 < nw.buffer_size)
    (hlen : 0 < skb.len) : 1 ≤ get_packet_credit_requirement nw skb := by
  unfold get_packet_credit_requirement DIV_ROUND_UP
  have h : 1 ≤ (skb.len + nw.buffer_size - 1) / nw.buffer_size := by
    apply (Nat.le_div_iff_mul_le hbs).mpr
    omega
  exact_mod_cast h

theorem credit_requirement_nonneg (nw : Nrc) (skb : SkBuff) :
    0 ≤ get_packet_credit_requirement nw skb := by
  unfold get_packet_credit_requirement
  exact Int.ofNat_nonneg _

theorem countP_le_credit_sum (nw : Nrc) (hbs : 0 < nw.buffer_size) (fs : List SkBuff) :
    ((fs.countP (fun f => decide (0 < f.len)) : Nat) : Int) ≤ credit_sum nw fs := by
  induction fs with
  | nil => simp [credit_sum]
  | cons f fs ih =>
    rw [credit_sum_cons, List.countP_cons]
    by_cases hf : 0 < f.len
    · have := credit_requirement_pos nw f hbs hf
      simp only [hf, decide_True, if_true]
      push_cast
      omega
    · have := credit_requirement_nonneg nw f
      simp only [hf, decide_False]
      simp only [Bool.false_eq_true, if_false, Nat.add_zero]
      omega

/-- C16 (counterexample): with 100-byte buffers a frame of length zero costs 0
credits, and a drain with budget 1 hands over all three pending frames of
length zero. -/
theorem push_txq_zero_length_frames :
    get_packet_credit_requirement zero_length_state (frame 0 1) = 0 ∧
    (newly_handed zero_length_state (nrc_push_txq_improved zero_length_state 0 1).2).length = 3 := by
  decide

/-- C16 (amended): for a positive buffer size a frame of non-zero length costs
at least one credit and a frame of length zero costs none; one call of
`nrc_push_txq_improved` hands over at most `max_credit` frames of non-zero
length (none when `max_credit` is not positive). -/
theorem push_txq_frame_count (nw : Nrc) (q : TxqId) (max_credit : Int)
    (hbs : 0 < nw.buffer_size) :
    (∀ skb : SkBuff, 0 < skb.len → 1 ≤ get_packet_credit_requirement nw skb) ∧
    (∀ skb : SkBuff, skb.len = 0 → get_packet_credit_requirement nw skb = 0) ∧
    (((newly_handed nw (nrc_push_txq_improved nw q max_credit).2).countP
        (fun e => decide (0 < e.2.len)) : Nat) : Int) ≤ max 0 max_credit := by
  refine ⟨fun skb h => credit_requirement_pos nw skb hbs h, ?_, ?_⟩
  · intro skb h
    unfold get_packet_credit_requirement DIV_ROUND_UP
    rw [h, Nat.zero_add, Nat.div_eq_of_lt (by omega)]
    rfl
  · obtain ⟨j, _, e1, _, _, _, _, _, e7, _⟩ := push_txq_spec nw q max_credit
    rw [newly_handed_of_append _ _ _ e1, List.countP_map]
    have h1 := countP_le_credit_sum nw hbs ((nw.txqs q).pending.take j)
    have h2 : max 0 (min (nrc_ac_credit nw (nw.txqs q).hw_queue) max_credit) ≤ max 0 max_credit :=
      max_le_max (le_refl 0) (min_le_right _ _)
    have h3 : List.countP ((fun e : TxqId × SkBuff => decide (0 < e.2.len)) ∘ fun f => (q, f))
        ((nw.txqs q).pending.take j)
        = List.countP (fun f => decide (0 < f.len)) ((nw.txqs q).pending.take j) := rfl
    rw [h3]
    omega

/-- C16 (witness): the queue of three zero-length frames, budget 1. -/
theorem push_txq_frame_count_witness :
    0 < zero_length_state.buffer_size ∧
    (((newly_handed zero_length_state (nrc_push_txq_improved zero_length_state 0 1).2).countP
        (fun e => decide (0 < e.2.len)) : Nat) : Int) ≤ max 0 1 :=
  ⟨by decide, (push_txq_frame_count zero_length_state 0 1 (by decide)).2.2⟩

/-! ## C17: what a visit charges -/

theorem count_active_pos_of_mem (nw : Nrc) (target : Nat) (q : TxqId) (hq : q ∈ nw.txq)
    (hac : (nw.txqs q).hw_queue = target) : count_active_txqs_by_ac nw target > 0 := by
  unfold count_active_txqs_by_ac
  apply List.countP_pos_iff.mpr
  exact ⟨q, hq, by simp [hac]⟩

theorem mem_of_count_active_pos (nw : Nrc) (target : Nat)
    (h : count_active_txqs_by_ac nw target > 0) :
    ∃ q, q ∈ nw.txq ∧ (nw.txqs q).hw_queue = target := by
  unfold count_active_txqs_by_ac at h
  obtain ⟨q, hq, hc⟩ := List.countP_pos_iff.mp h
  exact ⟨q, hq, by simpa using hc⟩

/-- C17 (counterexample): a single Best-Effort queue whose only frame is sent.
The drain is called with the allocation 5, the queue is unlinked, no
Best-Effort queue is left, and the remaining credit is still 5 after the
visit. -/
theorem process_last_queue_not_charged :
    (process_txqs_by_ac_priority single_queue_state IEEE80211_AC_BE 5).map
      (fun r => (r.1.push_log, r.1.txq, r.2)) = some ([PushCall.mk 0 5 0], [], 5) := by
  decide

/-- C17 (amended): a visit passes `min(credit_per_txq, remaining)` to the drain;
afterwards the remaining credit is lower by exactly that allocation when a
queue of the class is still in the active list (in particular whenever the
drain returned 1), whatever was transmitted, and it is unchanged when the
visited queue was unlinked and no queue of the class is left. -/
theorem visit_charges_allocation (target : Nat) (cpt : Int) (q : TxqId) (nw : Nrc) (rem : Int)
    (hc : 1 ≤ cpt) (hrem : 0 < rem) :
    ∃ ret,
      (txq_visit target cpt q nw rem).1.push_log
        = nw.push_log ++ [PushCall.mk q (min cpt rem) ret] ∧
      (count_active_txqs_by_ac (txq_visit target cpt q nw rem).1 target > 0 →
        (txq_visit target cpt q nw rem).2 = rem - min cpt rem) ∧
      (count_active_txqs_by_ac (txq_visit target cpt q nw rem).1 target = 0 →
        (txq_visit target cpt q nw rem).2 = rem) ∧
      ((nw.txqs q).hw_queue = target → ret = 1 →
        (txq_visit target cpt q nw rem).2 = rem - min cpt rem) := by
  obtain ⟨ret, j, e1, e2, _, e4, _, _, e7⟩ := txq_visit_spec target cpt q nw rem
  have halloc : 1 ≤ min cpt rem := le_min hc (by omega)
  have hpos : count_active_txqs_by_ac (txq_visit target cpt q nw rem).1 target > 0 →
      (txq_visit target cpt q nw rem).2 = rem - min cpt rem := by
    intro h
    rw [e7, if_pos h, min_self]
  refine ⟨ret, e1, hpos, ?_, ?_⟩
  · intro h
    have h0 : ¬ count_active_txqs_by_ac (txq_visit target cpt q nw rem).1 target > 0 := by omega
    rw [e7, if_neg h0, min_eq_right (by omega)]
    omega
  · intro hac h1
    apply hpos
    rcases e2 with ⟨h0, _⟩ | ⟨_, hm⟩
    · omega
    · apply count_active_pos_of_mem _ _ q
      · rw [hm]
        simp [list_move_tail]
      · rw [e4 q, hac]

/-- C17 (witness): the first visit of scenario 2, allocation `min 2 5`. -/
theorem visit_charges_allocation_witness :
    (1 : Int) ≤ 2 ∧ (0 : Int) < 5 ∧
    ∃ ret,
      (txq_visit IEEE80211_AC_BE 2 0 scenario2_state 5).1.push_log
        = scenario2_state.push_log ++ [PushCall.mk 0 (min 2 5) ret] ∧
      (count_active_txqs_by_ac (txq_visit IEEE80211_AC_BE 2 0 scenario2_state 5).1
          IEEE80211_AC_BE > 0 →
        (txq_visit IEEE80211_AC_BE 2 0 scenario2_state 5).2 = 5 - min 2 5) ∧
      (count_active_txqs_by_ac (txq_visit IEEE80211_AC_BE 2 0 scenario2_state 5).1
          IEEE80211_AC_BE = 0 →
        (txq_visit IEEE80211_AC_BE 2 0 scenario2_state 5).2 = 5) ∧
      ((scenario2_state.txqs 0).hw_queue = IEEE80211_AC_BE → ret = 1 →
        (txq_visit IEEE80211_AC_BE 2 0 scenario2_state 5).2 = 5 - min 2 5) :=
  ⟨by decide, by decide,
    visit_charges_allocation IEEE80211_AC_BE 2 0 scenario2_state 5 (by decide) (by decide)⟩

/-! ## Invariants of the traversal -/

/-- Induction principle for the traversal: a property of the cursor, the state
and the remaining credit that survives stepping over a queue of another class
and visiting a queue of the target class holds when the traversal ends, and the
traversal ends with the cursor at the list head or at a queue of the target
class with no credit remaining. -/
theorem txq_walk_invariant (target : Nat) (cpt : Int) (P : Option TxqId → Nrc → Int → Prop)
    (hskip : ∀ q nw rem, P (some q) nw rem → (nw.txqs q).hw_queue ≠ target →
      P (list_next nw.txq q) nw rem)
    (hvisit : ∀ q nw rem, P (some q) nw rem → (nw.txqs q).hw_queue = target → 0 < rem →
      P (list_next nw.txq q) (txq_visit target cpt q nw rem).1
        (txq_visit target cpt q nw rem).2) :
    ∀ (fuel : Nat) (pos : Option TxqId) (nw : Nrc) (rem : Int) (r : Nrc × Int),
      P pos nw rem → txq_walk target cpt fuel pos nw rem = some r →
      ∃ pos', P pos' r.1 r.2 ∧
        (pos' = none ∨ ∃ q, pos' = some q ∧ (r.1.txqs q).hw_queue = target ∧ r.2 ≤ 0) := by
  intro fuel
  induction fuel with
  | zero =>
    intro pos nw rem r hP hw
    cases pos with
    | none =>
      simp only [txq_walk, Option.some.injEq] at hw
      subst hw
      exact ⟨none, hP, Or.inl rfl⟩
    | some q => simp [txq_walk] at hw
  | succ fuel ih =>
    intro pos nw rem r hP hw
    cases pos with
    | none =>
      simp only [txq_walk, Option.some.injEq] at hw
      subst hw
      exact ⟨none, hP, Or.inl rfl⟩
    | some q =>
      rw [txq_walk] at hw
      by_cases hac : (nw.txqs q).hw_queue ≠ target
      · rw [if_pos hac] at hw
        exact ih _ nw rem r (hskip q nw rem hP hac) hw
      · rw [if_neg hac] at hw
        have hac2 : (nw.txqs q).hw_queue = target := not_not.mp hac
        by_cases hrem : rem ≤ 0
        · rw [if_pos hrem] at hw
          simp only [Option.some.injEq] at hw
          subst hw
          exact ⟨some q, hP, Or.inr ⟨q, rfl, hac2, hrem⟩⟩
        · rw [if_neg hrem] at hw
          exact ih _ _ _ r (hvisit q nw rem hP hac2 (not_le.mp hrem)) hw

/-! ## C20: the class scheduler leaves other classes alone -/

theorem other_class_erase (nw0 : Nrc) (c : Nat) (l : List TxqId) (q : TxqId)
    (hq : (nw0.txqs q).hw_queue = c) :
    other_class_txqs nw0 c (l.erase q) = other_class_txqs nw0 c l := by
  unfold other_class_txqs
  rw [← List.erase_filter]
  apply List.erase_of_not_mem
  intro h
  have := (List.mem_filter.mp h).2
  simp [hq] at this

theorem other_class_append_self (nw0 : Nrc) (c : Nat) (l : List TxqId) (q : TxqId)
    (hq : (nw0.txqs q).hw_queue = c) :
    other_class_txqs nw0 c (l ++ [q]) = other_class_txqs nw0 c l := by
  unfold other_class_txqs
  simp [List.filter_append, hq]

theorem frame_inv_refl (nw0 : Nrc) (target : Nat) : frame_inv nw0 target nw0 :=
  ⟨fun _ => rfl, fun _ _ => rfl, rfl, rfl, [], by simp, by simp⟩

theorem frame_inv_visit (nw0 : Nrc) (target : Nat) (cpt : Int) (q : TxqId) (nw : Nrc) (rem : Int)
    (h : frame_inv nw0 target nw) (hac : (nw.txqs q).hw_queue = target) :
    frame_inv nw0 target (txq_visit target cpt q nw rem).1 := by
  obtain ⟨f1, f2, f3, f4, hs, f5, f6⟩ := h
  obtain ⟨ret, j, _, e2, e3, e4, e5, e6, _⟩ := txq_visit_spec target cpt q nw rem
  have hq0 : (nw0.txqs q).hw_queue = target := by rw [← f1 q, hac]
  refine ⟨?_, ?_, ?_, ?_, ?_⟩
  · intro p
    rw [e4 p, f1 p]
  · intro p hp
    have hpq : p ≠ q := fun e => hp (e ▸ hq0)
    rw [e5 p hpq, f2 p hp]
  · rcases e2 with ⟨_, hd⟩ | ⟨_, hm⟩
    · rw [hd, list_del_init, other_class_erase nw0 target _ q hq0, f3]
    · rw [hm, list_move_tail, other_class_append_self nw0 target _ q hq0,
        other_class_erase nw0 target _ q hq0, f3]
  · rw [e6, f4]
  · refine ⟨hs ++ ((nw.txqs q).pending.take j).map (fun f => (q, f)), ?_, ?_⟩
    · rw [e3, f5, List.append_assoc]
    · intro e he
      rcases List.mem_append.mp he with h1 | h1
      · exact f6 e h1
      · obtain ⟨f, _, hf⟩ := List.mem_map.mp h1
        rw [← hf]
        exact hq0

theorem txq_walk_frame (nw0 : Nrc) (target : Nat) (cpt : Int) (fuel : Nat) (pos : Option TxqId)
    (nw : Nrc) (rem : Int) (r : Nrc × Int) (h : frame_inv nw0 target nw)
    (hw : txq_walk target cpt fuel pos nw rem = some r) : frame_inv nw0 target r.1 := by
  obtain ⟨_, hP, _⟩ := txq_walk_invariant target cpt (fun _ s _ => frame_inv nw0 target s)
    (fun _ _ _ hP _ => hP)
    (fun q s rm hP hac _ => frame_inv_visit nw0 target cpt q s rm hP hac)
    fuel pos nw rem r h hw
  exact hP

theorem process_txqs_frame (nw : Nrc) (target : Nat) (rem : Int) (r : Nrc × Int)
    (hp : process_txqs_by_ac_priority nw target rem = some r) : frame_inv nw target r.1 := by
  unfold process_txqs_by_ac_priority at hp
  by_cases h1 : rem ≤ 0
  · rw [if_pos h1] at hp
    simp only [Option.some.injEq] at hp
    rw [← hp]
    exact frame_inv_refl nw target
  · rw [if_neg h1] at hp
    by_cases h2 : count_active_txqs_by_ac nw target = 0
    · simp only [h2, if_true, Option.some.injEq] at hp
      rw [← hp]
      exact frame_inv_refl nw target
    · simp only [h2, if_false] at hp
      exact txq_walk_frame nw target _ _ _ nw rem r (frame_inv_refl nw target) hp

/-- C20: a call of `process_txqs_by_ac_priority` for the class `c` returns, and
in the state it returns every frame handed over during the call comes from a
queue of class `c`, every queue of another class is as it was (pending frames
and counters), and the queues of other classes are all still in the active
list, in the same order among themselves. -/
theorem process_isolates_other_classes (nw : Nrc) (c : Nat) (rem : Int) (hn : nw.txq.Nodup) :
    ∃ r, process_txqs_by_ac_priority nw c rem = some r ∧
      (∀ e ∈ newly_handed nw r.1, (nw.txqs e.1).hw_queue = c) ∧
      (∀ p, (nw.txqs p).hw_queue ≠ c → r.1.txqs p = nw.txqs p) ∧
      r.1.txq.filter (fun p => (nw.txqs p).hw_queue != c)
        = nw.txq.filter (fun p => (nw.txqs p).hw_queue != c) := by
  obtain ⟨r, hr, _⟩ := process_txqs_terminates nw c rem hn
  obtain ⟨_, f2, f3, _, hs, f5, f6⟩ := process_txqs_frame nw c rem r hr
  refine ⟨r, hr, ?_, f2, f3⟩
  rw [newly_handed_of_append _ _ _ f5]
  exact f6

/-- C20 (witness): the Voice turn on an active list holding a Voice and a
Background queue. -/
theorem process_isolates_other_classes_witness :
    priority_state.txq.Nodup ∧
    ∃ r, process_txqs_by_ac_priority priority_state IEEE80211_AC_VO 5 = some r ∧
      (∀ e ∈ newly_handed priority_state r.1,
        (priority_state.txqs e.1).hw_queue = IEEE80211_AC_VO) ∧
      (∀ p, (priority_state.txqs p).hw_queue ≠ IEEE80211_AC_VO →
        r.1.txqs p = priority_state.txqs p) ∧
      r.1.txq.filter (fun p => (priority_state.txqs p).hw_queue != IEEE80211_AC_VO)
        = priority_state.txq.filter
            (fun p => (priority_state.txqs p).hw_queue != IEEE80211_AC_VO) :=
  ⟨by decide, process_isolates_other_classes priority_state IEEE80211_AC_VO 5 (by decide)⟩

/-! ## C19: classes are served in priority order -/

theorem process_txqs_nonpos (nw : Nrc) (c : Nat) (rem : Int) (h : rem ≤ 0) :
    process_txqs_by_ac_priority nw c rem = some (nw, rem) := by
  unfold process_txqs_by_ac_priority
  rw [if_pos h]

theorem tasklet_loop_nonpos : ∀ (acs : List Nat) (nw : Nrc) (rem : Int), rem ≤ 0 →
    tasklet_loop acs nw rem = some (nw, rem) := by
  intro acs
  cases acs with
  | nil => intro nw rem _; rfl
  | cons ac rest =>
    intro nw rem h
    rw [tasklet_loop, process_txqs_nonpos nw ac rem h]
    simp only [h, if_true]

/-- Leaving the loop over the classes when no credit remains gives the same
result as calling the class scheduler for the classes that follow. -/
theorem tasklet_loop_cons (ac : Nat) (rest : List Nat) (nw : Nrc) (rem : Int) (r : Nrc × Int)
    (hp : process_txqs_by_ac_priority nw ac rem = some r) :
    tasklet_loop (ac :: rest) nw rem = tasklet_loop rest r.1 r.2 := by
  rw [tasklet_loop, hp]
  by_cases h : r.2 ≤ 0
  · simp only [h, if_true]
    rw [tasklet_loop_nonpos rest r.1 r.2 h]
  · simp only [h, if_false]

/-- C19: `nrc_tx_tasklet_improved` returns the state reached by the class
scheduler run for Voice, Video, Best Effort and Background in this order.  The
frames handed over in the pass are those of the Voice turn, then those of the
Video turn, then Best Effort, then Background, and the frames of each turn come
from queues of that class only.  A turn that starts with no credit remaining
changes nothing, so a class is drained only if credit remained after the
classes before it. -/
theorem tasklet_priority_order (nw : Nrc) (hn : nw.txq.Nodup) :
    ∃ s1 s2 s3 s4 : Nrc × Int,
      process_txqs_by_ac_priority nw IEEE80211_AC_VO (total_available_credit nw) = some s1 ∧
      process_txqs_by_ac_priority s1.1 IEEE80211_AC_VI s1.2 = some s2 ∧
      process_txqs_by_ac_priority s2.1 IEEE80211_AC_BE s2.2 = some s3 ∧
      process_txqs_by_ac_priority s3.1 IEEE80211_AC_BK s3.2 = some s4 ∧
      nrc_tx_tasklet_improved nw = some s4.1 ∧
      (total_available_credit nw ≤ 0 → s1 = (nw, total_available_credit nw)) ∧
      (s1.2 ≤ 0 → s2 = s1) ∧ (s2.2 ≤ 0 → s3 = s2) ∧ (s3.2 ≤ 0 → s4 = s3) ∧
      newly_handed nw s4.1
        = newly_handed nw s1.1 ++ newly_handed s1.1 s2.1 ++ newly_handed s2.1 s3.1
            ++ newly_handed s3.1 s4.1 ∧
      (∀ e ∈ newly_handed nw s1.1, (nw.txqs e.1).hw_queue = IEEE80211_AC_VO) ∧
      (∀ e ∈ newly_handed s1.1 s2.1, (nw.txqs e.1).hw_queue = IEEE80211_AC_VI) ∧
      (∀ e ∈ newly_handed s2.1 s3.1, (nw.txqs e.1).hw_queue = IEEE80211_AC_BE) ∧
      (∀ e ∈ newly_handed s3.1 s4.1, (nw.txqs e.1).hw_queue = IEEE80211_AC_BK) := by
  obtain ⟨s1, h1, n1⟩ := process_txqs_terminates nw IEEE80211_AC_VO (total_available_credit nw) hn
  obtain ⟨s2, h2, n2⟩ := process_txqs_terminates s1.1 IEEE80211_AC_VI s1.2 n1
  obtain ⟨s3, h3, n3⟩ := process_txqs_terminates s2.1 IEEE80211_AC_BE s2.2 n2
  obtain ⟨s4, h4, _⟩ := process_txqs_terminates s3.1 IEEE80211_AC_BK s3.2 n3
  obtain ⟨c1, _, _, _, hs1, a1, b1⟩ := process_txqs_frame nw _ _ s1 h1
  obtain ⟨c2, _, _, _, hs2, a2, b2⟩ := process_txqs_frame s1.1 _ _ s2 h2
  obtain ⟨c3, _, _, _, hs3, a3, b3⟩ := process_txqs_frame s2.1 _ _ s3 h3
  obtain ⟨_, _, _, _, hs4, a4, b4⟩ := process_txqs_frame s3.1 _ _ s4 h4
  have hloop : tasklet_loop ac_priority_order nw (total_available_credit nw) = some s4 := by
    unfold ac_priority_order
    rw [tasklet_loop_cons _ _ _ _ s1 h1, tasklet_loop_cons _ _ _ _ s2 h2,
      tasklet_loop_cons _ _ _ _ s3 h3, tasklet_loop_cons _ _ _ _ s4 h4]
    rfl
  have hnp : ∀ (s : Nrc) (c : Nat) (rm : Int) (t : Nrc × Int),
      process_txqs_by_ac_priority s c rm = some t → rm ≤ 0 → t = (s, rm) := by
    intro s c rm t ht hle
    rw [process_txqs_nonpos s c rm hle] at ht
    exact (Option.some.inj ht).symm
  refine ⟨s1, s2, s3, s4, h1, h2, h3, h4, ?_, hnp _ _ _ _ h1, hnp _ _ _ _ h2, hnp _ _ _ _ h3,
    hnp _ _ _ _ h4, ?_, ?_, ?_, ?_, ?_⟩
  · unfold nrc_tx_tasklet_improved
    by_cases e1 : count_total_active_txqs nw = 0
    · rw [if_pos e1]
      have hcount : ∀ c, count_active_txqs_by_ac nw c = 0 := by
        intro c
        unfold count_total_active_txqs at e1
        unfold count_active_txqs_by_ac
        rw [List.length_eq_zero.mp e1]
        rfl
      have hsame : ∀ (c : Nat) (rm : Int) (t : Nrc × Int),
          process_txqs_by_ac_priority nw c rm = some t → t = (nw, rm) := by
        intro c rm t ht
        unfold process_txqs_by_ac_priority at ht
        by_cases hr : rm ≤ 0
        · rw [if_pos hr] at ht
          exact (Option.some.inj ht).symm
        · rw [if_neg hr] at ht
          simp only [hcount c, if_true] at ht
          exact (Option.some.inj ht).symm
      have t1 := hsame _ _ _ h1
      rw [t1] at h2
      have t2 := hsame _ _ _ h2
      rw [t2] at h3
      have t3 := hsame _ _ _ h3
      rw [t3] at h4
      have t4 := hsame _ _ _ h4
      rw [t4]
    · rw [if_neg e1]
      by_cases e2 : total_available_credit nw ≤ 0
      · rw [if_pos e2]
        have t1 := hnp _ _ _ _ h1 e2
        rw [t1] at h2
        have t2 := hnp _ _ _ _ h2 e2
        rw [t2] at h3
        have t3 := hnp _ _ _ _ h3 e2
        rw [t3] at h4
        have t4 := hnp _ _ _ _ h4 e2
        rw [t4]
      · rw [if_neg e2, hloop]
        rfl
  · have k1 := newly_handed_of_append _ _ _ a1
    have k2 := newly_handed_of_append _ _ _ a2
    have k3 := newly_handed_of_append _ _ _ a3
    have k4 := newly_handed_of_append _ _ _ a4
    rw [k1, k2, k3, k4]
    apply newly_handed_of_append
    rw [a4, a3, a2, a1]
    simp only [List.append_assoc]
  · rw [newly_handed_of_append _ _ _ a1]
    exact b1
  · rw [newly_handed_of_append _ _ _ a2]
    intro e he
    rw [← c1 e.1]
    exact b2 e he
  · rw [newly_handed_of_append _ _ _ a3]
    intro e he
    rw [← c1 e.1, ← c2 e.1]
    exact b3 e he
  · rw [newly_handed_of_append _ _ _ a4]
    intro e he
    rw [← c1 e.1, ← c2 e.1, ← c3 e.1]
    exact b4 e he

/-! ## The order of the drain calls in one traversal -/

theorem nodup_middle_facts (B R : List TxqId) (q : TxqId) (hn : (B ++ q :: R).Nodup) :
    q ∉ B ∧ q ∉ R ∧ (B ++ R).Nodup ∧ (B ++ q :: R).erase q = B ++ R ∧
      list_next (B ++ q :: R) q = R.head? := by
  have h1 := List.nodup_middle.mp hn
  have h2 := List.nodup_cons.mp h1
  have hB : q ∉ B := fun h => h2.1 (List.mem_append_left R h)
  have hR : q ∉ R := fun h => h2.1 (List.mem_append_right B h)
  exact ⟨hB, hR, h2.2, erase_split B R q hB, list_next_split B R q hB⟩

theorem nodup_move_tail (l : List TxqId) (q : TxqId) (hn : l.Nodup) :
    (list_move_tail l q).Nodup := by
  unfold list_move_tail
  refine List.nodup_append.mpr ⟨hn.erase q, List.nodup_singleton q, ?_⟩
  intro x hx hxq
  have : x = q := by simpa using hxq
  rw [this] at hx
  exact ((List.Nodup.mem_erase_iff hn).mp hx).1 rfl

theorem drained_append (calls : List PushCall) (c : PushCall) :
    drained (calls ++ [c]) = drained calls ++ [c.txq] := by
  simp [drained]

theorem walk_inv_init (nw0 : Nrc) (target : Nat) (hn : nw0.txq.Nodup) :
    walk_inv nw0 target [] nw0.txq.head? nw0 := by
  refine ⟨by simp, fun _ => rfl, hn, fun _ h => h, by simp, ?_, ?_⟩
  · intro xs e ys h
    simp at h
  · intro q hq
    cases hl : nw0.txq with
    | nil => rw [hl] at hq; simp at hq
    | cons a l =>
      rw [hl] at hq
      simp only [List.head?_cons, Option.some.injEq] at hq
      subst hq
      refine ⟨[], l, [], by simp, by simp, by simp [drained], by simp, by simp [drained], ?_⟩
      intro p hp _
      right
      simpa using hp

/-- The cursor is a queue of the active list. -/
theorem walk_inv_mem (nw0 : Nrc) (target : Nat) (calls : List PushCall) (q : TxqId) (nw : Nrc)
    (h : walk_inv nw0 target calls (some q) nw) : q ∈ nw.txq := by
  obtain ⟨_, _, _, _, _, _, hz⟩ := h
  obtain ⟨B, U, M, hl, _⟩ := hz q rfl
  rw [hl]
  simp

/-- When the cursor is at a queue drained before, every queue of the target
class of the initial active list has been drained. -/
theorem walk_inv_repeat (nw0 : Nrc) (target : Nat) (calls : List PushCall) (q : TxqId) (nw : Nrc)
    (h : walk_inv nw0 target calls (some q) nw) (hq : q ∈ drained calls) :
    ∀ p ∈ nw0.txq, (nw0.txqs p).hw_queue = target → p ∈ drained calls := by
  obtain ⟨_, _, _, _, _, _, hz⟩ := h
  obtain ⟨B, U, M, _, _, _, _, hU, ht⟩ := hz q rfl
  intro p hp hc
  rcases ht p hp hc with h1 | h1 | h1
  · exact h1
  · rw [h1]
    exact hq
  · rw [hU hq] at h1
    simp at h1

/-- A queue of the target class that has not been drained and is not at the
cursor lies further on in the active list. -/
theorem walk_inv_pending (nw0 : Nrc) (target : Nat) (calls : List PushCall) (q : TxqId)
    (nw : Nrc) (h : walk_inv nw0 target calls (some q) nw) (p : TxqId) (hp : p ∈ nw0.txq)
    (hc : (nw0.txqs p).hw_queue = target) (hnd : p ∉ drained calls) (hpq : p ≠ q) :
    (∃ x, list_next nw.txq q = some x) ∧ p ∈ nw.txq.erase q := by
  obtain ⟨_, _, hn, _, _, _, hz⟩ := h
  obtain ⟨B, U, M, hl, _, _, _, _, ht⟩ := hz q rfl
  have hpU : p ∈ U := by
    rcases ht p hp hc with h1 | h1 | h1
    · exact absurd h1 hnd
    · exact absurd h1 hpq
    · exact h1
  rw [hl] at hn
  obtain ⟨_, _, _, he, hnx⟩ := nodup_middle_facts B (U ++ M) q hn
  rw [hl, he, hnx]
  constructor
  · cases U with
    | nil => simp at hpU
    | cons u U1 => exact ⟨u, rfl⟩
  · exact List.mem_append_right B (List.mem_append_left M hpU)

theorem walk_inv_skip (nw0 : Nrc) (target : Nat) (calls : List PushCall) (q : TxqId) (nw : Nrc)
    (h : walk_inv nw0 target calls (some q) nw) (hac : (nw.txqs q).hw_queue ≠ target) :
    walk_inv nw0 target calls (list_next nw.txq q) nw := by
  obtain ⟨h1, h2, hn, h4, h5, h6, hz⟩ := h
  obtain ⟨B, U, M, hl, hB, hU, hM, _, ht⟩ := hz q rfl
  have hq0 : (nw0.txqs q).hw_queue ≠ target := by rw [← h2 q]; exact hac
  have hB2 : ∀ x ∈ B ++ [q], (nw0.txqs x).hw_queue ≠ target := by
    intro x hx
    rcases List.mem_append.mp hx with a | a
    · exact hB x a
    · have : x = q := by simpa using a
      rw [this]
      exact hq0
  refine ⟨h1, h2, hn, h4, h5, h6, ?_⟩
  intro x hx
  have hn2 := hn
  rw [hl] at hn2
  obtain ⟨_, _, _, _, hnx⟩ := nodup_middle_facts B (U ++ M) q hn2
  rw [hl, hnx] at hx
  have htgt : ∀ p ∈ nw0.txq, (nw0.txqs p).hw_queue = target → p ≠ q := by
    intro p _ hc e
    exact hq0 (e ▸ hc)
  cases U with
  | nil =>
    cases M with
    | nil => simp at hx
    | cons m M1 =>
      simp only [List.nil_append, List.head?_cons, Option.some.injEq] at hx
      subst hx
      refine ⟨B ++ [q], [], M1, by simp [hl], hB2, by simp,
        fun y hy => hM y (List.mem_cons_of_mem _ hy), fun _ => rfl, ?_⟩
      intro p hp hc
      rcases ht p hp hc with a | a | a
      · exact Or.inl a
      · exact absurd a (htgt p hp hc)
      · simp at a
  | cons u U1 =>
    simp only [List.cons_append, List.head?_cons, Option.some.injEq] at hx
    subst hx
    refine ⟨B ++ [q], U1, M, by simp [hl], hB2, fun y hy => hU y (List.mem_cons_of_mem _ hy), hM,
      fun hu => absurd hu (hU u (List.mem_cons_self u U1)), ?_⟩
    intro p hp hc
    rcases ht p hp hc with a | a | a
    · exact Or.inl a
    · exact absurd a (htgt p hp hc)
    · rcases List.mem_cons.mp a with b | b
      · exact Or.inr (Or.inl b)
      · exact Or.inr (Or.inr b)

theorem walk_inv_visit (nw0 : Nrc) (target : Nat) (cpt : Int) (calls : List PushCall)
    (q : TxqId) (nw : Nrc) (rem : Int)
    (h : walk_inv nw0 target calls (some q) nw) (hac : (nw.txqs q).hw_queue = target)
    (hc : 1 ≤ cpt) (hrem : 0 < rem) (ret : Int)
    (hlog : (txq_visit target cpt q nw rem).1.push_log
      = nw.push_log ++ [PushCall.mk q (min cpt rem) ret]) :
    walk_inv nw0 target (calls ++ [PushCall.mk q (min cpt rem) ret]) (list_next nw.txq q)
      (txq_visit target cpt q nw rem).1 := by
  have hrep := walk_inv_repeat nw0 target calls q nw h
  have hqmem := walk_inv_mem nw0 target calls q nw h
  obtain ⟨h1, h2, hn, h4, h5, h6, hz⟩ := h
  obtain ⟨B, U, M, hl, hB, hU, hM, _, ht⟩ := hz q rfl
  obtain ⟨_, _, _, e2, _, e4, _, _, _⟩ := txq_visit_spec target cpt q nw rem
  have hn2 := hn
  rw [hl] at hn2
  obtain ⟨_, hqR, _, her, hnx⟩ := nodup_middle_facts B (U ++ M) q hn2
  have hq0 : (nw0.txqs q).hw_queue = target := by rw [← h2 q]; exact hac
  have hlist : ∃ T, (∀ y ∈ T, y = q) ∧
      (txq_visit target cpt q nw rem).1.txq = B ++ ((U ++ M) ++ T) := by
    rcases e2 with ⟨_, hd⟩ | ⟨_, hm⟩
    · exact ⟨[], by simp, by rw [hd, list_del_init, hl, her]; simp⟩
    · exact ⟨[q], by simp, by rw [hm, list_move_tail, hl, her]; simp⟩
  obtain ⟨T, hT, hlT⟩ := hlist
  have hD : drained (calls ++ [PushCall.mk q (min cpt rem) ret]) = drained calls ++ [q] :=
    drained_append calls _
  refine ⟨?_, ?_, ?_, ?_, ?_, ?_, ?_⟩
  · rw [hlog, h1, List.append_assoc]
  · intro p
    rw [e4 p, h2 p]
  · rcases e2 with ⟨_, hd⟩ | ⟨_, hm⟩
    · rw [hd]
      exact hn.erase q
    · rw [hm]
      exact nodup_move_tail nw.txq q hn
  · intro x hx
    rcases e2 with ⟨_, hd⟩ | ⟨_, hm⟩
    · rw [hd] at hx
      exact h4 x (List.mem_of_mem_erase hx)
    · rw [hm, list_move_tail] at hx
      rcases List.mem_append.mp hx with a | a
      · exact h4 x (List.mem_of_mem_erase a)
      · have : x = q := by simpa using a
        rw [this]
        exact h4 q hqmem
  · intro c hcm
    rcases List.mem_append.mp hcm with a | a
    · exact h5 c a
    · have : c = PushCall.mk q (min cpt rem) ret := by simpa using a
      rw [this]
      exact ⟨h4 q hqmem, hq0, le_min hc (by omega)⟩
  · intro xs e ys heq hmem
    rcases List.eq_nil_or_concat ys with hy | ⟨ys1, y, hy⟩
    · rw [hy] at heq
      have hinj := List.append_inj' heq rfl
      have he : e = PushCall.mk q (min cpt rem) ret := by
        have := hinj.2
        simp at this
        exact this.symm
      rw [← hinj.1]
      rw [← hinj.1, he] at hmem
      exact hrep hmem
    · rw [hy] at heq
      have heq2 : calls ++ [PushCall.mk q (min cpt rem) ret] = (xs ++ e :: ys1) ++ [y] := by
        rw [heq]
        simp
      have hinj := List.append_inj' heq2 rfl
      exact h6 xs e ys1 hinj.1 hmem
  · intro x hx
    rw [hl, hnx] at hx
    rw [hD]
    cases U with
    | nil =>
      cases M with
      | nil => simp at hx
      | cons m M1 =>
        simp only [List.nil_append, List.head?_cons, Option.some.injEq] at hx
        subst hx
        refine ⟨B, [], M1 ++ T, by rw [hlT]; simp, hB, by simp, ?_, fun _ => rfl, ?_⟩
        · intro y hy
          rcases List.mem_append.mp hy with a | a
          · exact List.mem_append_left _ (hM y (List.mem_cons_of_mem _ a))
          · rw [hT y a]
            simp
        · intro p hp hcl
          rcases ht p hp hcl with a | a | a
          · exact Or.inl (List.mem_append_left _ a)
          · left
            rw [a]
            simp
          · simp at a
    | cons u U1 =>
      simp only [List.cons_append, List.head?_cons, Option.some.injEq] at hx
      subst hx
      have huq : ∀ y ∈ u :: U1, y ≠ q := by
        intro y hy e
        rw [e] at hy
        exact hqR (List.mem_append_left M hy)
      refine ⟨B, U1, M ++ T, by rw [hlT]; simp, hB, ?_, ?_, ?_, ?_⟩
      · intro y hy hyd
        rcases List.mem_append.mp hyd with a | a
        · exact hU y (List.mem_cons_of_mem _ hy) a
        · have : y = q := by simpa using a
          exact huq y (List.mem_cons_of_mem _ hy) this
      · intro y hy
        rcases List.mem_append.mp hy with a | a
        · exact List.mem_append_left _ (hM y a)
        · rw [hT y a]
          simp
      · intro hu
        rcases List.mem_append.mp hu with a | a
        · exact absurd a (hU u (List.mem_cons_self u U1))
        · have : u = q := by simpa using a
          exact absurd this (huq u (List.mem_cons_self u U1))
      · intro p hp hcl
        rcases ht p hp hcl with a | a | a
        · exact Or.inl (List.mem_append_left _ a)
        · left
          rw [a]
          simp
        · rcases List.mem_cons.mp a with b | b
          · exact Or.inr (Or.inl b)
          · exact Or.inr (Or.inr b)

/-- A property of the drain calls, the cursor, the state and the remaining
credit that holds at the start of the traversal and survives every step holds
when `process_txqs_by_ac_priority` returns; the call returns. -/
theorem process_walk_invariant (nw : Nrc) (target : Nat) (rem : Int) (hn : nw.txq.Nodup)
    (hrem : 0 < rem) (hcount : count_active_txqs_by_ac nw target ≠ 0)
    (K : List PushCall → Option TxqId → Nrc → Int → Prop)
    (hinit : K [] nw.txq.head? nw rem)
    (hskip : ∀ calls q s rm, walk_inv nw target calls (some q) s → K calls (some q) s rm →
      (s.txqs q).hw_queue ≠ target → K calls (list_next s.txq q) s rm)
    (hvisit : ∀ calls q s rm ret, walk_inv nw target calls (some q) s → K calls (some q) s rm →
      (s.txqs q).hw_queue = target → 0 < rm →
      (txq_visit target (max 1 (Int.tdiv rem (count_active_txqs_by_ac nw target : Nat)))
          q s rm).1.push_log
        = s.push_log ++ [PushCall.mk q
            (min (max 1 (Int.tdiv rem (count_active_txqs_by_ac nw target : Nat))) rm) ret] →
      K (calls ++ [PushCall.mk q
            (min (max 1 (Int.tdiv rem (count_active_txqs_by_ac nw target : Nat))) rm) ret])
        (list_next s.txq q)
        (txq_visit target (max 1 (Int.tdiv rem (count_active_txqs_by_ac nw target : Nat)))
          q s rm).1
        (txq_visit target (max 1 (Int.tdiv rem (count_active_txqs_by_ac nw target : Nat)))
          q s rm).2) :
    ∃ r calls pos, process_txqs_by_ac_priority nw target rem = some r ∧
      walk_inv nw target calls pos r.1 ∧ K calls pos r.1 r.2 ∧
      (pos = none ∨ ∃ q, pos = some q ∧ (r.1.txqs q).hw_queue = target ∧ r.2 ≤ 0) := by
  have hc1 : (1 : Int) ≤ max 1 (Int.tdiv rem (count_active_txqs_by_ac nw target : Nat)) :=
    le_max_left _ _
  have hproc : process_txqs_by_ac_priority nw target rem
      = txq_walk target (max 1 (Int.tdiv rem (count_active_txqs_by_ac nw target : Nat)))
          (walk_fuel nw rem) nw.txq.head? nw rem := by
    unfold process_txqs_by_ac_priority
    rw [if_neg (not_le.mpr hrem)]
    simp only [hcount, if_false]
  obtain ⟨r, hr, _⟩ := txq_walk_terminates target _ hc1 (walk_fuel nw rem) nw.txq.head? nw rem hn
    (fun q hq => List.mem_of_mem_head? hq)
    (by
      unfold walk_fuel
      have := cursor_dist_le nw.txq nw.txq.head?
      omega)
  obtain ⟨pos, ⟨calls, hw, hk⟩, hend⟩ := txq_walk_invariant target _
    (fun pos s rm => ∃ calls, walk_inv nw target calls pos s ∧ K calls pos s rm)
    (fun q s rm hP hac => by
      obtain ⟨calls, hw, hk⟩ := hP
      exact ⟨calls, walk_inv_skip nw target calls q s hw hac, hskip calls q s rm hw hk hac⟩)
    (fun q s rm hP hac hpos => by
      obtain ⟨calls, hw, hk⟩ := hP
      obtain ⟨ret, _, e1, _⟩ := txq_visit_spec target
        (max 1 (Int.tdiv rem (count_active_txqs_by_ac nw target : Nat))) q s rm
      exact ⟨_, walk_inv_visit nw target _ calls q s rm hw hac hc1 hpos ret e1,
        hvisit calls q s rm ret hw hk hac hpos e1⟩)
    (walk_fuel nw rem) nw.txq.head? nw rem r ⟨[], walk_inv_init nw target hn, hinit⟩ hr
  exact ⟨r, calls, pos, by rw [hproc, hr], hw, hk, hend⟩

/-- A visit lowers the remaining credit by at least one, or it unlinks the
queue and leaves no queue of the class in the active list. -/
theorem txq_visit_progress (target : Nat) (cpt : Int) (q : TxqId) (nw : Nrc) (rem : Int)
    (hc : 1 ≤ cpt) (hrem : 0 < rem) (hac : (nw.txqs q).hw_queue = target) :
    (0 ≤ (txq_visit target cpt q nw rem).2 ∧ (txq_visit target cpt q nw rem).2 + 1 ≤ rem) ∨
    ((txq_visit target cpt q nw rem).2 = rem ∧
      (txq_visit target cpt q nw rem).1.txq = list_del_init nw.txq q ∧
      count_active_txqs_by_ac (txq_visit target cpt q nw rem).1 target = 0) := by
  obtain ⟨ret, j, _, e2, _, e4, _, _, e7⟩ := txq_visit_spec target cpt q nw rem
  have halloc : 1 ≤ min cpt rem := le_min hc (by omega)
  have hle : min cpt rem ≤ rem := min_le_right _ _
  by_cases hcnt : count_active_txqs_by_ac (txq_visit target cpt q nw rem).1 target > 0
  · left
    rw [e7, if_pos hcnt, min_self]
    omega
  · right
    have h0 : count_active_txqs_by_ac (txq_visit target cpt q nw rem).1 target = 0 := by omega
    refine ⟨?_, ?_, h0⟩
    · rw [e7, if_neg hcnt, min_eq_right (by omega)]
      omega
    · rcases e2 with ⟨_, hd⟩ | ⟨_, hm⟩
      · exact hd
      · exfalso
        apply hcnt
        apply count_active_pos_of_mem _ _ q
        · rw [hm]
          simp [list_move_tail]
        · rw [e4 q, hac]

/-- The drain calls of one call of `process_txqs_by_ac_priority`: the call
returns, every drained queue was in the active list at the start with the
target class, every allocation is at least 1, the calls are in round-robin
order, and there are at most `remaining` of them. -/
theorem process_calls (nw : Nrc) (target : Nat) (rem : Int) (hn : nw.txq.Nodup) :
    ∃ r calls, process_txqs_by_ac_priority nw target rem = some r ∧
      r.1.push_log = nw.push_log ++ calls ∧
      (∀ c ∈ calls, c.txq ∈ nw.txq ∧ (nw.txqs c.txq).hw_queue = target ∧ 1 ≤ c.max_credit) ∧
      round_robin nw target calls ∧
      (calls.length : Int) ≤ max rem 0 := by
  have htriv : ∀ rm : Int, process_txqs_by_ac_priority nw target rem = some (nw, rm) →
      ∃ r calls, process_txqs_by_ac_priority nw target rem = some r ∧
        r.1.push_log = nw.push_log ++ calls ∧
        (∀ c ∈ calls, c.txq ∈ nw.txq ∧ (nw.txqs c.txq).hw_queue = target ∧ 1 ≤ c.max_credit) ∧
        round_robin nw target calls ∧
        (calls.length : Int) ≤ max rem 0 := by
    intro rm h
    refine ⟨(nw, rm), [], h, by simp, by simp, ?_, by simp⟩
    intro xs e ys hx
    simp at hx
  by_cases hrem : rem ≤ 0
  · exact htriv rem (process_txqs_nonpos nw target rem hrem)
  · by_cases hcount : count_active_txqs_by_ac nw target = 0
    · apply htriv rem
      unfold process_txqs_by_ac_priority
      rw [if_neg hrem]
      simp only [hcount, if_true]
    · obtain ⟨r, calls, pos, hr, hw, hk, _⟩ := process_walk_invariant nw target rem hn
        (not_le.mp hrem) hcount
        (fun calls _ s rm => 0 ≤ rm ∧ ((calls.length : Int) + rm ≤ rem ∨
          (count_active_txqs_by_ac s target = 0 ∧ (calls.length : Int) ≤ rem)))
        (by
          refine ⟨by omega, Or.inl ?_⟩
          simp)
        (fun calls q s rm _ hk _ => hk)
        (fun calls q s rm ret hw hk hac hpos _ => by
          obtain ⟨_, hk2⟩ := hk
          have hq := walk_inv_mem nw target calls q s hw
          have hlen : (calls ++ [PushCall.mk q
              (min (max 1 (Int.tdiv rem (count_active_txqs_by_ac nw target : Nat))) rm)
              ret]).length = calls.length + 1 := by simp
          rw [hlen]
          have hpre : (calls.length : Int) + rm ≤ rem := by
            rcases hk2 with a | ⟨a, _⟩
            · exact a
            · have := count_active_pos_of_mem s target q hq hac
              omega
          rcases txq_visit_progress target _ q s rm (le_max_left _ _) hpos hac
            with ⟨a, b⟩ | ⟨a, _, c⟩
          · refine ⟨a, Or.inl ?_⟩
            push_cast
            omega
          · refine ⟨by omega, Or.inr ⟨c, ?_⟩⟩
            push_cast
            omega)
      obtain ⟨h1, _, _, _, h5, h6, _⟩ := hw
      refine ⟨r, calls, hr, h1, h5, h6, ?_⟩
      have : (calls.length : Int) ≤ rem := by
        rcases hk.2 with a | ⟨_, a⟩
        · have := hk.1
          omega
        · exact a
      exact le_trans this (le_max_left _ _)

/-- The active list after a visit: the queue is unlinked when the drain returned
0 and moved to the tail otherwise. -/
theorem txq_visit_list (target : Nat) (cpt : Int) (q : TxqId) (nw : Nrc) (rem : Int) :
    (txq_visit target cpt q nw rem).1.txq
      = if (nrc_push_txq_improved nw q (min cpt rem)).1 = 0 then list_del_init nw.txq q
        else list_move_tail nw.txq q := by
  obtain ⟨_, _, _, _, _, _, _, e6, _⟩ := push_txq_spec nw q (min cpt rem)
  simp only [txq_visit]
  by_cases h : (nrc_push_txq_improved nw q (min cpt rem)).1 = 0
  · simp only [h, if_true]
    rw [e6.1]
  · simp only [h, if_false]
    rw [e6.1]

/-! ## C13: which queues a call drains -/

/-- C13 (counterexample): in scenario 2 queue 0 is drained with budget 2,
returns 1 and is moved to the tail, queue 1 is drained, and then queue 0 is
drained a second time in the same call. -/
theorem process_revisits_moved_queue :
    (process_txqs_by_ac_priority scenario2_state IEEE80211_AC_BE 5).map
      (fun r => r.1.push_log) = some [PushCall.mk 0 2 1, PushCall.mk 1 2 1, PushCall.mk 0 1 1] := by
  decide

/-- C13 (amended): a call of `process_txqs_by_ac_priority` returns; every queue
it passes to `nrc_push_txq_improved` was in the active list at the start of the
call and has the target class; and it makes at most `remaining` drain calls. -/
theorem process_drains_initial_class_queues (nw : Nrc) (target : Nat) (rem : Int)
    (hn : nw.txq.Nodup) :
    ∃ r calls, process_txqs_by_ac_priority nw target rem = some r ∧
      r.1.push_log = nw.push_log ++ calls ∧
      (∀ c ∈ calls, c.txq ∈ nw.txq ∧ (nw.txqs c.txq).hw_queue = target) ∧
      (calls.length : Int) ≤ max rem 0 := by
  obtain ⟨r, calls, hr, h1, h2, _, h4⟩ := process_calls nw target rem hn
  exact ⟨r, calls, hr, h1, fun c hc => ⟨(h2 c hc).1, (h2 c hc).2.1⟩, h4⟩

/-- C13 (witness): scenario 2. -/
theorem process_drains_initial_class_queues_witness :
    scenario2_state.txq.Nodup ∧
    ∃ r calls, process_txqs_by_ac_priority scenario2_state IEEE80211_AC_BE 5 = some r ∧
      r.1.push_log = scenario2_state.push_log ++ calls ∧
      (∀ c ∈ calls, c.txq ∈ scenario2_state.txq ∧
        (scenario2_state.txqs c.txq).hw_queue = IEEE80211_AC_BE) ∧
      (calls.length : Int) ≤ max 5 0 :=
  ⟨by decide, process_drains_initial_class_queues scenario2_state IEEE80211_AC_BE 5 (by decide)⟩

/-! ## C14: round-robin reinsertion -/

/-- C14: in any state, a visit whose drain does not return 0 leaves the queue as
the last entry of the active list; and in the sequence of drain calls of one
call of `process_txqs_by_ac_priority`, whenever a queue is drained that was
drained earlier in the sequence, every queue of the target class that was in the
active list at the start of the call has been drained before. -/
theorem process_round_robin (nw : Nrc) (target : Nat) (rem : Int) (hn : nw.txq.Nodup) :
    (∀ (s : Nrc) (cpt : Int) (q : TxqId) (rm : Int),
      (nrc_push_txq_improved s q (min cpt rm)).1 ≠ 0 →
      (txq_visit target cpt q s rm).1.txq.getLast? = some q) ∧
    ∃ r calls, process_txqs_by_ac_priority nw target rem = some r ∧
      r.1.push_log = nw.push_log ++ calls ∧
      ∀ xs e ys, calls = xs ++ e :: ys → e.txq ∈ xs.map PushCall.txq →
        ∀ p ∈ nw.txq, (nw.txqs p).hw_queue = target → p ∈ xs.map PushCall.txq := by
  constructor
  · intro s cpt q rm h
    rw [txq_visit_list, if_neg h, list_move_tail]
    simp
  · obtain ⟨r, calls, hr, h1, _, h3, _⟩ := process_calls nw target rem hn
    exact ⟨r, calls, hr, h1, h3⟩

/-- C14 (witness): scenario 2. -/
theorem process_round_robin_witness :
    scenario2_state.txq.Nodup ∧
    ((∀ (s : Nrc) (cpt : Int) (q : TxqId) (rm : Int),
      (nrc_push_txq_improved s q (min cpt rm)).1 ≠ 0 →
      (txq_visit IEEE80211_AC_BE cpt q s rm).1.txq.getLast? = some q) ∧
    ∃ r calls, process_txqs_by_ac_priority scenario2_state IEEE80211_AC_BE 5 = some r ∧
      r.1.push_log = scenario2_state.push_log ++ calls ∧
      ∀ xs e ys, calls = xs ++ e :: ys → e.txq ∈ xs.map PushCall.txq →
        ∀ p ∈ scenario2_state.txq, (scenario2_state.txqs p).hw_queue = IEEE80211_AC_BE →
          p ∈ xs.map PushCall.txq) :=
  ⟨by decide, process_round_robin scenario2_state IEEE80211_AC_BE 5 (by decide)⟩

/-! ## C18: a pass terminates -/

/-- C18: from an active list without duplicates, `nrc_tx_tasklet_improved`
returns, and every call of `process_txqs_by_ac_priority` returns after at most
`remaining` drain calls; in any state, a visit of a queue of the target class
with credit remaining lowers the remaining credit by at least 1, or unlinks the
queue and leaves no queue of that class in the active list. -/
theorem pass_terminates (nw : Nrc) (hn : nw.txq.Nodup) :
    (∃ r, nrc_tx_tasklet_improved nw = some r) ∧
    (∀ ac rem, ∃ r calls, process_txqs_by_ac_priority nw ac rem = some r ∧
      r.1.push_log = nw.push_log ++ calls ∧ (calls.length : Int) ≤ max rem 0) ∧
    (∀ (s : Nrc) (target : Nat) (cpt : Int) (q : TxqId) (rm : Int),
      1 ≤ cpt → 0 < rm → (s.txqs q).hw_queue = target →
      (txq_visit target cpt q s rm).2 + 1 ≤ rm ∨
      ((txq_visit target cpt q s rm).1.txq = list_del_init s.txq q ∧
        count_active_txqs_by_ac (txq_visit target cpt q s rm).1 target = 0)) := by
  refine ⟨?_, ?_, ?_⟩
  · obtain ⟨r, hr, _⟩ := tasklet_terminates nw hn
    exact ⟨r, hr⟩
  · intro ac rem
    obtain ⟨r, calls, hr, h1, _, _, h4⟩ := process_calls nw ac rem hn
    exact ⟨r, calls, hr, h1, h4⟩
  · intro s target cpt q rm hc hrm hac
    rcases txq_visit_progress target cpt q s rm hc hrm hac with ⟨_, b⟩ | ⟨_, b, c⟩
    · exact Or.inl b
    · exact Or.inr ⟨b, c⟩

/-- C18 (witness): the active list of a Voice and a Background queue. -/
theorem pass_terminates_witness :
    priority_state.txq.Nodup ∧
    ((∃ r, nrc_tx_tasklet_improved priority_state = some r) ∧
    (∀ ac rem, ∃ r calls, process_txqs_by_ac_priority priority_state ac rem = some r ∧
      r.1.push_log = priority_state.push_log ++ calls ∧ (calls.length : Int) ≤ max rem 0) ∧
    (∀ (s : Nrc) (target : Nat) (cpt : Int) (q : TxqId) (rm : Int),
      1 ≤ cpt → 0 < rm → (s.txqs q).hw_queue = target →
      (txq_visit target cpt q s rm).2 + 1 ≤ rm ∨
      ((txq_visit target cpt q s rm).1.txq = list_del_init s.txq q ∧
        count_active_txqs_by_ac (txq_visit target cpt q s rm).1 target = 0))) :=
  ⟨by decide, pass_terminates priority_state (by decide)⟩

/-- C19 (witness): the active list of a Voice and a Background queue. -/
theorem tasklet_priority_order_witness :
    priority_state.txq.Nodup ∧
    ∃ s1 s2 s3 s4 : Nrc × Int,
      process_txqs_by_ac_priority priority_state IEEE80211_AC_VO
        (total_available_credit priority_state) = some s1 ∧
      process_txqs_by_ac_priority s1.1 IEEE80211_AC_VI s1.2 = some s2 ∧
      process_txqs_by_ac_priority s2.1 IEEE80211_AC_BE s2.2 = some s3 ∧
      process_txqs_by_ac_priority s3.1 IEEE80211_AC_BK s3.2 = some s4 ∧
      nrc_tx_tasklet_improved priority_state = some s4.1 ∧
      (total_available_credit priority_state ≤ 0 →
        s1 = (priority_state, total_available_credit priority_state)) ∧
      (s1.2 ≤ 0 → s2 = s1) ∧ (s2.2 ≤ 0 → s3 = s2) ∧ (s3.2 ≤ 0 → s4 = s3) ∧
      newly_handed priority_state s4.1
        = newly_handed priority_state s1.1 ++ newly_handed s1.1 s2.1 ++ newly_handed s2.1 s3.1
            ++ newly_handed s3.1 s4.1 ∧
      (∀ e ∈ newly_handed priority_state s1.1,
        (priority_state.txqs e.1).hw_queue = IEEE80211_AC_VO) ∧
      (∀ e ∈ newly_handed s1.1 s2.1, (priority_state.txqs e.1).hw_queue = IEEE80211_AC_VI) ∧
      (∀ e ∈ newly_handed s2.1 s3.1, (priority_state.txqs e.1).hw_queue = IEEE80211_AC_BE) ∧
      (∀ e ∈ newly_handed s3.1 s4.1, (priority_state.txqs e.1).hw_queue = IEEE80211_AC_BK) :=
  ⟨by decide, tasklet_priority_order priority_state (by decide)⟩

/-! ## C12: one credit and several queues -/

/-- A visit with credit remaining charges the whole allocation when a queue of
the class is in the active list afterwards, and nothing otherwise. -/
theorem txq_visit_charge (target : Nat) (cpt : Int) (q : TxqId) (nw : Nrc) (rem : Int)
    (hc : 1 ≤ cpt) (hrem : 0 < rem) :
    ((txq_visit target cpt q nw rem).2 = rem - min cpt rem ∧
      count_active_txqs_by_ac (txq_visit target cpt q nw rem).1 target > 0) ∨
    ((txq_visit target cpt q nw rem).2 = rem ∧
      count_active_txqs_by_ac (txq_visit target cpt q nw rem).1 target = 0) := by
  obtain ⟨_, _, _, _, _, _, _, _, e7⟩ := txq_visit_spec target cpt q nw rem
  have halloc : 1 ≤ min cpt rem := le_min hc (by omega)
  by_cases hcnt : count_active_txqs_by_ac (txq_visit target cpt q nw rem).1 target > 0
  · left
    refine ⟨?_, hcnt⟩
    rw [e7, if_pos hcnt, min_self]
  · right
    refine ⟨?_, by omega⟩
    rw [e7, if_neg hcnt, min_eq_right (by omega)]
    omega

/-- A queue other than the visited one that is in the active list with the
target class keeps the class counted after the visit. -/
theorem count_pos_after_visit (target : Nat) (cpt : Int) (q : TxqId) (nw : Nrc) (rem : Int)
    (p : TxqId) (hp : p ∈ nw.txq.erase q) (hc : (nw.txqs p).hw_queue = target) :
    count_active_txqs_by_ac (txq_visit target cpt q nw rem).1 target > 0 := by
  obtain ⟨_, _, _, e2, _, e4, _, _, _⟩ := txq_visit_spec target cpt q nw rem
  apply count_active_pos_of_mem _ _ p
  · rcases e2 with ⟨_, hd⟩ | ⟨_, hm⟩
    · rw [hd]
      exact hp
    · rw [hm, list_move_tail]
      exact List.mem_append_left _ hp
  · rw [e4 p, hc]

/-- With at least two queues of a class in a duplicate-free active list, there
is one other than any given queue. -/
theorem other_target (nw : Nrc) (target : Nat) (hn : nw.txq.Nodup)
    (h2 : 2 ≤ count_active_txqs_by_ac nw target) (q : TxqId) :
    ∃ p ∈ nw.txq, (nw.txqs p).hw_queue = target ∧ p ≠ q := by
  by_contra hno
  have hall : ∀ p ∈ nw.txq.filter (fun p => (nw.txqs p).hw_queue == target), p = q := by
    intro p hp
    by_contra hpq
    have hm := List.mem_filter.mp hp
    exact hno ⟨p, hm.1, by simpa using hm.2, hpq⟩
  have hnf : (nw.txq.filter (fun p => (nw.txqs p).hw_queue == target)).Nodup := hn.filter _
  unfold count_active_txqs_by_ac at h2
  rw [List.countP_eq_length_filter] at h2
  generalize nw.txq.filter (fun p => (nw.txqs p).hw_queue == target) = l at hall hnf h2
  match l, hall, hnf, h2 with
  | [], _, _, h2 => simp at h2
  | [_], _, _, h2 => simp at h2
  | a :: b :: t, hall, hnf, _ =>
    have ha := hall a (by simp)
    have hb := hall b (by simp)
    rw [ha, hb] at hnf
    simp at hnf

theorem find_first (f : TxqId → Bool) (B R : List TxqId) (q : TxqId)
    (hB : ∀ x ∈ B, f x = false) (hq : f q = true) : (B ++ q :: R).find? f = some q := by
  induction B with
  | nil => simp [List.find?, hq]
  | cons b B ih =>
    have hb := hB b (List.mem_cons_self b B)
    rw [List.cons_append, List.find?_cons, hb]
    exact ih (fun x hx => hB x (List.mem_cons_of_mem b hx))

/-- A cursor at a queue of the target class is at the first such queue of the
active list. -/
theorem walk_inv_first (nw0 : Nrc) (target : Nat) (calls : List PushCall) (q : TxqId) (nw : Nrc)
    (h : walk_inv nw0 target calls (some q) nw) (hac : (nw.txqs q).hw_queue = target) :
    nw.txq.find? (fun p => (nw0.txqs p).hw_queue == target) = some q := by
  obtain ⟨_, h2, _, _, _, _, hz⟩ := h
  obtain ⟨B, U, M, hl, hB, _⟩ := hz q rfl
  rw [hl]
  apply find_first
  · intro x hx
    simpa using hB x hx
  · rw [← h2 q]
    simpa using hac

/-- C12 (counterexample): five Best-Effort queues and one credit remaining.
The only drain call of the turn goes to queue 0 (allocation 1); the remaining
credit is then 0 and queues 1 to 4 receive no drain call. -/
theorem process_five_queues_one_credit :
    (process_txqs_by_ac_priority five_queue_state IEEE80211_AC_BE 1).map
      (fun r => (r.1.push_log, r.2)) = some ([PushCall.mk 0 1 0], 0) := by
  decide

/-- C12 (amended): when at least two queues of the class are active and the
remaining credit is 1, `process_txqs_by_ac_priority` makes exactly one drain
call, with allocation 1, to the first queue of the class in the active list;
the remaining credit is then 0, so the other queues of the class receive no
drain call in this call. -/
theorem process_single_credit (nw : Nrc) (target : Nat) (hn : nw.txq.Nodup)
    (h2 : 2 ≤ count_active_txqs_by_ac nw target) :
    ∃ r q ret, process_txqs_by_ac_priority nw target 1 = some r ∧
      r.1.push_log = nw.push_log ++ [PushCall.mk q 1 ret] ∧
      nw.txq.find? (fun p => (nw.txqs p).hw_queue == target) = some q ∧
      r.2 = 0 := by
  have hcpt : ∀ rm : Int, rm = 1 →
      min (max 1 (Int.tdiv 1 (count_active_txqs_by_ac nw target : Nat))) rm = 1 := by
    intro rm hrm
    rw [hrm]
    exact min_eq_right (le_max_left _ _)
  obtain ⟨r, calls, pos, hr, hw, hk, hend⟩ := process_walk_invariant nw target 1 hn
    (by decide) (by omega)
    (fun calls pos s rm =>
      (calls = [] ∧ rm = 1 ∧ s.txq = nw.txq ∧ pos ≠ none) ∨
      (∃ q ret, calls = [PushCall.mk q 1 ret] ∧ rm = 0 ∧
        nw.txq.find? (fun p => (nw.txqs p).hw_queue == target) = some q))
    (by
      left
      refine ⟨rfl, rfl, rfl, ?_⟩
      obtain ⟨p, hp, _⟩ := mem_of_count_active_pos nw target (by omega)
      intro h
      rw [List.head?_eq_none_iff.mp h] at hp
      simp at hp)
    (fun calls q s rm hw hk hac => by
      rcases hk with ⟨hc, hrm, hl, _⟩ | hk
      · left
        refine ⟨hc, hrm, hl, ?_⟩
        obtain ⟨p, hp, hpc, _⟩ := other_target nw target hn h2 q
        have hpq : p ≠ q := by
          intro e
          rw [e] at hpc
          exact hac (by rw [hw.2.1 q]; exact hpc)
        obtain ⟨⟨x, hx⟩, _⟩ := walk_inv_pending nw target calls q s hw p hp hpc
          (by rw [hc]; simp [drained]) hpq
        rw [hx]
        simp
      · exact Or.inr hk)
    (fun calls q s rm ret hw hk hac hpos _ => by
      rcases hk with ⟨hc, hrm, hl, _⟩ | ⟨_, _, _, hrm, _⟩
      · right
        obtain ⟨p, hp, hpc, hpq⟩ := other_target nw target hn h2 q
        obtain ⟨_, hpe⟩ := walk_inv_pending nw target calls q s hw p hp hpc
          (by rw [hc]; simp [drained]) hpq
        have hcnt := count_pos_after_visit target
          (max 1 (Int.tdiv 1 (count_active_txqs_by_ac nw target : Nat))) q s rm p hpe
          (by rw [hw.2.1 p]; exact hpc)
        refine ⟨q, ret, ?_, ?_, ?_⟩
        · rw [hc, hcpt rm hrm]
          rfl
        · rcases txq_visit_charge target
            (max 1 (Int.tdiv 1 (count_active_txqs_by_ac nw target : Nat))) q s rm
            (le_max_left _ _) hpos with ⟨a, _⟩ | ⟨_, b⟩
          · rw [a, hcpt rm hrm, hrm]
            rfl
          · omega
        · rw [← hl]
          exact walk_inv_first nw target calls q s hw hac
      · omega)
  rcases hk with ⟨_, hrm, _, hp⟩ | ⟨q, ret, hc, hrm, hf⟩
  · exfalso
    rcases hend with a | ⟨_, _, _, a⟩
    · exact hp a
    · omega
  · refine ⟨r, q, ret, hr, ?_, hf, hrm⟩
    rw [hw.1, hc]

/-- C12 (witness): five Best-Effort queues. -/
theorem process_single_credit_witness :
    five_queue_state.txq.Nodup ∧
    2 ≤ count_active_txqs_by_ac five_queue_state IEEE80211_AC_BE ∧
    ∃ r q ret, process_txqs_by_ac_priority five_queue_state IEEE80211_AC_BE 1 = some r ∧
      r.1.push_log = five_queue_state.push_log ++ [PushCall.mk q 1 ret] ∧
      five_queue_state.txq.find?
        (fun p => (five_queue_state.txqs p).hw_queue == IEEE80211_AC_BE) = some q ∧
      r.2 = 0 :=
  ⟨by decide, by decide,
    process_single_credit five_queue_state IEEE80211_AC_BE (by decide) (by decide)⟩

/-! ## C11: fairness between two queues of a class -/

/-- With exactly two queues of a class in a duplicate-free active list, they
are two distinct queues `a` and `b`, and every queue of the class in the list is
one of them. -/
theorem two_targets (nw : Nrc) (target : Nat) (hn : nw.txq.Nodup)
    (h2 : count_active_txqs_by_ac nw target = 2) :
    ∃ a b, a ≠ b ∧ ∀ p, p ∈ nw.txq → (nw.txqs p).hw_queue = target → p = a ∨ p = b := by
  have hnf : (nw.txq.filter (fun p => (nw.txqs p).hw_queue == target)).Nodup := hn.filter _
  unfold count_active_txqs_by_ac at h2
  rw [List.countP_eq_length_filter] at h2
  obtain ⟨a, b, hab⟩ := List.length_eq_two.mp h2
  rw [hab] at hnf
  refine ⟨a, b, by simpa using hnf, ?_⟩
  intro p hp hc
  have : p ∈ nw.txq.filter (fun p => (nw.txqs p).hw_queue == target) :=
    List.mem_filter.mpr ⟨hp, by simpa using hc⟩
  rw [hab] at this
  simpa using this

/-- The state of the drain calls in a call for a class with exactly two active
queues, remaining credit `R` at the start and fair share `c`: no call yet; one
call; one call for each queue with the fair share; or a third call with
allocation 1 for one of the two when `R` is odd. -/
theorem two_queue_calls (nw : Nrc) (target : Nat) (R : Int) (hn : nw.txq.Nodup) (hR : 1 ≤ R)
    (h2 : count_active_txqs_by_ac nw target = 2) :
    ∃ r calls, process_txqs_by_ac_priority nw target R = some r ∧
      r.1.push_log = nw.push_log ++ calls ∧
      ((R = 1 ∧ ∃ x ret, calls = [PushCall.mk x 1 ret]) ∨
       (∃ x y r1 r2, x ≠ y ∧ 2 ≤ R ∧
          calls = [PushCall.mk x (R / 2) r1, PushCall.mk y (R / 2) r2]) ∨
       (∃ x y z r1 r2 r3, x ≠ y ∧ (z = x ∨ z = y) ∧ R = 2 * (R / 2) + 1 ∧ 2 ≤ R ∧
          calls = [PushCall.mk x (R / 2) r1, PushCall.mk y (R / 2) r2, PushCall.mk z 1 r3])) ∧
      (∀ c ∈ calls, c.txq ∈ nw.txq ∧ (nw.txqs c.txq).hw_queue = target) := by
  obtain ⟨a, b, hab, htargets⟩ := two_targets nw target hn h2
  have hpigeon : ∀ x y q, x ≠ y → x ∈ nw.txq → (nw.txqs x).hw_queue = target →
      y ∈ nw.txq → (nw.txqs y).hw_queue = target →
      q ∈ nw.txq → (nw.txqs q).hw_queue = target → q = x ∨ q = y := by
    intro x y q hxy hx hxc hy hyc hq hqc
    rcases htargets x hx hxc with e1 | e1 <;> rcases htargets y hy hyc with e2 | e2 <;>
      rcases htargets q hq hqc with e3 | e3 <;> subst e1 <;> subst e2 <;> subst e3 <;>
      simp_all
  have hother : ∀ q, ∃ p ∈ nw.txq, (nw.txqs p).hw_queue = target ∧ p ≠ q :=
    other_target nw target hn (by omega)
  have hdiv : Int.tdiv R ((count_active_txqs_by_ac nw target : Nat) : Int) = R / 2 := by
    rw [h2, Int.tdiv_eq_ediv (by omega) (by decide)]
    rfl
  obtain ⟨c, hc⟩ : ∃ c, c = max 1 (Int.tdiv R ((count_active_txqs_by_ac nw target : Nat) : Int)) :=
    ⟨_, rfl⟩
  have hc1 : 1 ≤ c := by rw [hc]; exact le_max_left _ _
  have hcR1 : R = 1 → c = 1 := by
    intro h
    rw [hc, hdiv, h]
    decide
  have hcR2 : 2 ≤ R → c = R / 2 := by
    intro h
    rw [hc, hdiv]
    exact max_eq_right (by omega)
  have H := process_walk_invariant nw target R hn (by omega) (by omega)
    (fun calls pos s rm =>
      (calls = [] ∧ rm = R ∧ pos ≠ none) ∨
      (∃ x ret, calls = [PushCall.mk x (min c R) ret] ∧ rm = R - min c R ∧
        (2 ≤ R → pos ≠ none)) ∨
      (∃ x y r1 r2, x ≠ y ∧ calls = [PushCall.mk x c r1, PushCall.mk y c r2] ∧ 2 ≤ R ∧
        (rm = R - 2 * c ∨ count_active_txqs_by_ac s target = 0)) ∨
      (∃ x y z r1 r2 r3, x ≠ y ∧ (z = x ∨ z = y) ∧
        calls = [PushCall.mk x c r1, PushCall.mk y c r2, PushCall.mk z 1 r3] ∧
        R = 2 * c + 1 ∧ 2 ≤ R ∧ (rm = 0 ∨ count_active_txqs_by_ac s target = 0)))
  rw [← hc] at H
  obtain ⟨r, calls, pos, hr, hw, hk, hend⟩ := H
    (by
      left
      refine ⟨rfl, rfl, ?_⟩
      obtain ⟨p, hp, _⟩ := hother 0
      intro h
      rw [List.head?_eq_none_iff.mp h] at hp
      simp at hp)
    (fun calls q s rm hw hk hac => by
      have hq0 : (nw.txqs q).hw_queue ≠ target := by rw [← hw.2.1 q]; exact hac
      rcases hk with ⟨hcl, hrm, _⟩ | ⟨x, ret, hcl, hrm, _⟩ | hk | hk
      · left
        refine ⟨hcl, hrm, ?_⟩
        obtain ⟨p, hp, hpc, _⟩ := hother q
        have hpq : p ≠ q := fun e => hq0 (e ▸ hpc)
        obtain ⟨⟨y, hy⟩, _⟩ := walk_inv_pending nw target calls q s hw p hp hpc
          (by rw [hcl]; simp [drained]) hpq
        rw [hy]
        simp
      · right
        left
        refine ⟨x, ret, hcl, hrm, fun _ => ?_⟩
        obtain ⟨p, hp, hpc, hpx⟩ := hother x
        have hpq : p ≠ q := fun e => hq0 (e ▸ hpc)
        obtain ⟨⟨y, hy⟩, _⟩ := walk_inv_pending nw target calls q s hw p hp hpc
          (by rw [hcl]; simpa [drained] using hpx) hpq
        rw [hy]
        simp
      · exact Or.inr (Or.inr (Or.inl hk))
      · exact Or.inr (Or.inr (Or.inr hk)))
    (fun calls q s rm ret hw hk hac hpos _ => by
      have hqs := walk_inv_mem nw target calls q s hw
      have hq0c : (nw.txqs q).hw_queue = target := by rw [← hw.2.1 q]; exact hac
      have hq0m : q ∈ nw.txq := hw.2.2.2.1 q hqs
      have hcnt_s : count_active_txqs_by_ac s target > 0 :=
        count_active_pos_of_mem s target q hqs hac
      have hcharge := txq_visit_charge target c q s rm hc1 hpos
      rcases hk with ⟨hcl, hrm, _⟩ | ⟨x, r1, hcl, hrm, _⟩ |
        ⟨x, y, r1, r2, hxy, hcl, hR2, hrm⟩ | ⟨x, y, z, r1, r2, r3, _, _, _, _, _, hrm⟩
      · right
        left
        obtain ⟨p, hp, hpc, hpq⟩ := hother q
        obtain ⟨⟨u, hu⟩, hpe⟩ := walk_inv_pending nw target calls q s hw p hp hpc
          (by rw [hcl]; simp [drained]) hpq
        have hcnt := count_pos_after_visit target c q s rm p hpe
          (by rw [hw.2.1 p]; exact hpc)
        refine ⟨q, ret, ?_, ?_, fun _ => ?_⟩
        · rw [hcl, hrm]
          rfl
        · rcases hcharge with ⟨e, _⟩ | ⟨_, e⟩
          · rw [e, hrm]
          · omega
        · rw [hu]
          simp
      · right
        right
        left
        have hR2 : 2 ≤ R := by
          by_contra hlt
          have h1 : R = 1 := by omega
          rw [hcR1 h1, h1] at hrm
          have : min (1 : Int) 1 = 1 := min_self 1
          omega
        have hcv := hcR2 hR2
        have hmin : min c R = c := min_eq_left (by omega)
        rw [hmin] at hcl hrm
        have hqx : x ≠ q := by
          intro e
          have hrep := walk_inv_repeat nw target calls q s hw (by rw [hcl, e]; simp [drained])
          obtain ⟨p, hp, hpc, hpx⟩ := hother x
          have := hrep p hp hpc
          rw [hcl] at this
          simp [drained] at this
          exact hpx this
        have hmin2 : min c rm = c := min_eq_left (by omega)
        refine ⟨x, q, r1, ret, hqx, ?_, hR2, ?_⟩
        · rw [hcl, hmin2]
          rfl
        · rcases hcharge with ⟨e, _⟩ | ⟨_, e⟩
          · left
            rw [e, hmin2, hrm]
            ring
          · exact Or.inr e
      · right
        right
        right
        have hcv := hcR2 hR2
        have hrm2 : rm = R - 2 * c := by
          rcases hrm with e | e
          · exact e
          · omega
        have hrm1 : rm = 1 := by omega
        have hmin : min c rm = 1 := by
          rw [hrm1]
          exact min_eq_right hc1
        have hx := hw.2.2.2.2.1 (PushCall.mk x c r1) (by rw [hcl]; simp)
        have hy := hw.2.2.2.2.1 (PushCall.mk y c r2) (by rw [hcl]; simp)
        refine ⟨x, y, q, r1, r2, ret,
          hxy, hpigeon x y q hxy hx.1 hx.2.1 hy.1 hy.2.1 hq0m hq0c, ?_, by omega, hR2, ?_⟩
        · rw [hcl, hmin]
          rfl
        · rcases hcharge with ⟨e, _⟩ | ⟨_, e⟩
          · left
            rw [e, hmin, hrm1]
            rfl
          · exact Or.inr e
      · exfalso
        rcases hrm with e | e <;> omega)
  have hcalls : ∀ cl ∈ calls, cl.txq ∈ nw.txq ∧ (nw.txqs cl.txq).hw_queue = target :=
    fun cl hcl => ⟨(hw.2.2.2.2.1 cl hcl).1, (hw.2.2.2.2.1 cl hcl).2.1⟩
  refine ⟨r, calls, hr, hw.1, ?_, hcalls⟩
  rcases hk with ⟨_, hrm, hp⟩ | ⟨x, ret, hcl, hrm, hp⟩ |
    ⟨x, y, r1, r2, hxy, hcl, hR2, _⟩ | ⟨x, y, z, r1, r2, r3, hxy, hz, hcl, hodd, hR2, _⟩
  · exfalso
    rcases hend with a | ⟨_, _, _, a⟩
    · exact hp a
    · omega
  · left
    have hR1 : R = 1 := by
      by_contra hne
      have hR2 : 2 ≤ R := by omega
      have hcv := hcR2 hR2
      have hmin : min c R = c := min_eq_left (by omega)
      rw [hmin] at hrm
      rcases hend with a | ⟨_, _, _, a⟩
      · exact hp hR2 a
      · omega
    refine ⟨hR1, x, ret, ?_⟩
    rw [hcl, hcR1 hR1, hR1]
    rfl
  · right
    left
    exact ⟨x, y, r1, r2, hxy, hR2, by rw [hcl, hcR2 hR2]⟩
  · right
    right
    have hcv := hcR2 hR2
    exact ⟨x, y, z, r1, r2, r3, hxy, hz, by omega, hR2, by rw [hcl, hcv]⟩

theorem allocated_to_one (x : TxqId) (m ret : Int) (p : TxqId) :
    allocated_to [PushCall.mk x m ret] p = if x = p then m else 0 := by
  by_cases h : x = p
  · have hb : (x == p) = true := by simp [h]
    simp [allocated_to, List.filter_cons, hb, h]
  · have hb : (x == p) = false := by simp [h]
    simp [allocated_to, List.filter_cons, hb, h]

theorem allocated_to_cons (cl : PushCall) (calls : List PushCall) (p : TxqId) :
    allocated_to (cl :: calls) p
      = (if cl.txq = p then cl.max_credit else 0) + allocated_to calls p := by
  by_cases h : cl.txq = p
  · have hb : (cl.txq == p) = true := by simp [h]
    simp [allocated_to, List.filter_cons, hb, h]
  · have hb : (cl.txq == p) = false := by simp [h]
    simp [allocated_to, List.filter_cons, hb, h]

/-- C11: when `process_txqs_by_ac_priority` runs for a class with exactly two
active queues and remaining credit `R >= 1`, the budgets it allocates to each
of the two queues during the call add up to `floor(R/2)` or `ceil(R/2)`, and the
totals of the two queues differ by at most 1. -/
theorem process_two_queue_fairness (nw : Nrc) (target : Nat) (R : Int) (hn : nw.txq.Nodup)
    (hR : 1 ≤ R) (h2 : count_active_txqs_by_ac nw target = 2) :
    ∃ r calls, process_txqs_by_ac_priority nw target R = some r ∧
      r.1.push_log = nw.push_log ++ calls ∧
      (∀ p ∈ nw.txq, (nw.txqs p).hw_queue = target →
        allocated_to calls p = R / 2 ∨ allocated_to calls p = (R + 1) / 2) ∧
      (∀ p ∈ nw.txq, (nw.txqs p).hw_queue = target →
        ∀ p' ∈ nw.txq, (nw.txqs p').hw_queue = target →
          allocated_to calls p ≤ allocated_to calls p' + 1) := by
  obtain ⟨a, b, hab, htargets⟩ := two_targets nw target hn h2
  obtain ⟨r, calls, hr, hlog, hcases, hcalls⟩ := two_queue_calls nw target R hn hR h2
  have hpigeon : ∀ x y q, x ≠ y → x ∈ nw.txq → (nw.txqs x).hw_queue = target →
      y ∈ nw.txq → (nw.txqs y).hw_queue = target →
      q ∈ nw.txq → (nw.txqs q).hw_queue = target → q = x ∨ q = y := by
    intro x y q hxy hx hxc hy hyc hq hqc
    rcases htargets x hx hxc with e1 | e1 <;> rcases htargets y hy hyc with e2 | e2 <;>
      rcases htargets q hq hqc with e3 | e3 <;> subst e1 <;> subst e2 <;> subst e3 <;>
      simp_all
  have hmain : ∀ p ∈ nw.txq, (nw.txqs p).hw_queue = target →
      allocated_to calls p = R / 2 ∨ allocated_to calls p = (R + 1) / 2 := by
    intro p hp hpc
    rcases hcases with ⟨hR1, x, ret, hcl⟩ | ⟨x, y, r1, r2, hxy, _, hcl⟩ |
      ⟨x, y, z, r1, r2, r3, hxy, hz, hodd, _, hcl⟩
    · rw [hcl, allocated_to_one, hR1]
      by_cases h : x = p
      · right
        rw [if_pos h]
        decide
      · left
        rw [if_neg h]
        decide
    · have hx := hcalls (PushCall.mk x (R / 2) r1) (by rw [hcl]; simp)
      have hy := hcalls (PushCall.mk y (R / 2) r2) (by rw [hcl]; simp)
      left
      rw [hcl, allocated_to_cons, allocated_to_one]
      rcases hpigeon x y p hxy hx.1 hx.2 hy.1 hy.2 hp hpc with e | e
      · subst e
        simp [Ne.symm hxy]
      · subst e
        simp [hxy]
    · have hx := hcalls (PushCall.mk x (R / 2) r1) (by rw [hcl]; simp)
      have hy := hcalls (PushCall.mk y (R / 2) r2) (by rw [hcl]; simp)
      have hceil : (R + 1) / 2 = R / 2 + 1 := by omega
      rw [hcl, allocated_to_cons, allocated_to_cons, allocated_to_one, hceil]
      rcases hpigeon x y p hxy hx.1 hx.2 hy.1 hy.2 hp hpc with e | e <;>
        rcases hz with f | f <;> subst e <;> subst f <;> simp [hxy, Ne.symm hxy]
  refine ⟨r, calls, hr, hlog, hmain, ?_⟩
  intro p hp hpc p' hp' hpc'
  have h1 := hmain p hp hpc
  have h2 := hmain p' hp' hpc'
  omega

/-- C11 (witness): scenario 2, two Best-Effort queues and `R = 5`. -/
theorem process_two_queue_fairness_witness :
    scenario2_state.txq.Nodup ∧ (1 : Int) ≤ 5 ∧
    count_active_txqs_by_ac scenario2_state IEEE80211_AC_BE = 2 ∧
    ∃ r calls, process_txqs_by_ac_priority scenario2_state IEEE80211_AC_BE 5 = some r ∧
      r.1.push_log = scenario2_state.push_log ++ calls ∧
      (∀ p ∈ scenario2_state.txq, (scenario2_state.txqs p).hw_queue = IEEE80211_AC_BE →
        allocated_to calls p = 5 / 2 ∨ allocated_to calls p = (5 + 1) / 2) ∧
      (∀ p ∈ scenario2_state.txq, (scenario2_state.txqs p).hw_queue = IEEE80211_AC_BE →
        ∀ p' ∈ scenario2_state.txq, (scenario2_state.txqs p').hw_queue = IEEE80211_AC_BE →
          allocated_to calls p ≤ allocated_to calls p' + 1) :=
  ⟨by decide, by decide, by decide,
    process_two_queue_fairness scenario2_state IEEE80211_AC_BE 5 (by decide) (by decide)
      (by decide)⟩

end Nrc7292
